import Mathlib

/-!
# Verification of the LeadPilot pipeline tools

Shallow embedding of the Python sources under `Tools/` of the LeadPilot
lead-generation pipeline, together with proofs settling the frozen claims
about its specification.

Strings manipulated character-by-character by the Python code are modelled
as `List Char` (Python strings index by code point, exactly as `List Char`
does); strings used only as opaque dictionary keys / cell values in the
orchestrator model are Lean `String`s.
-/

namespace LeadPilot

/-- Python's whitespace set for `str.strip()` and the regex class `\s`
(ASCII part): space, tab, newline, carriage return, vertical tab, form feed. -/
def isPySpace (c : Char) : Bool :=
  c = ' ' || c = '\t' || c = '\n' || c = '\r' || c = '\x0b' || c = '\x0c'

/-- Python `str.lstrip()` on a character list. -/
def lstripL (s : List Char) : List Char := s.dropWhile isPySpace

/-- Python `str.rstrip()` on a character list. -/
def rstripL (s : List Char) : List Char := (s.reverse.dropWhile isPySpace).reverse

/-- Python `str.strip()` on a character list. -/
def stripL (s : List Char) : List Char := rstripL (lstripL s)

/-- Characters are equal when their code points are. -/
lemma char_toNat_inj (a b : Char) (h : a.toNat = b.toNat) : a = b := by
  rw [← Char.ofNat_toNat a, h, Char.ofNat_toNat]

/-! ## `update_sheet._col_index_to_letter` (Tools/update_sheet.py lines 68-74)

```python
def _col_index_to_letter(idx: int) -> str:
    result = ""
    while idx > 0:
        idx, remainder = divmod(idx - 1, 26)
        result = chr(65 + remainder) + result
    return result
```
The loop prepends each new character, so the recursive form emits the
low-order digit last. -/

def colIndexToLetter (idx : Nat) : List Char :=
  if _h : idx = 0 then []
  else colIndexToLetter ((idx - 1) / 26) ++ [Char.ofNat (65 + (idx - 1) % 26)]
termination_by idx
decreasing_by
  exact Nat.lt_of_le_of_lt (Nat.div_le_self _ _) (Nat.pred_lt _h)

/-- Bijective base-26 value of a letter string: `A = 1`, …, `Z = 26`,
digits weighted by powers of 26 (so "AA" = 27, "AAA" = 703). -/
def bij26Val (s : List Char) : Nat :=
  s.foldl (fun a c => a * 26 + (c.toNat - 64)) 0

/-- A spreadsheet column label: a nonempty string of uppercase letters A-Z. -/
def isColLabel (s : List Char) : Bool :=
  decide (s ≠ []) && s.all (fun c => 65 ≤ c.toNat && c.toNat ≤ 90)

lemma bij26Val_append_singleton (s : List Char) (c : Char) :
    bij26Val (s ++ [c]) = bij26Val s * 26 + (c.toNat - 64) := by
  simp [bij26Val, List.foldl_append]

lemma colIndexToLetter_zero : colIndexToLetter 0 = [] := by
  rw [colIndexToLetter]
  simp

lemma colIndexToLetter_pos (n : Nat) (h : n ≠ 0) :
    colIndexToLetter n
      = colIndexToLetter ((n - 1) / 26) ++ [Char.ofNat (65 + (n - 1) % 26)] := by
  rw [colIndexToLetter]
  simp [h]

lemma toNat_ofNat_digit (r : Nat) (h : r < 26) :
    (Char.ofNat (65 + r)).toNat = 65 + r := by
  interval_cases r <;> decide

lemma bij26Val_colIndexToLetter (n : Nat) : bij26Val (colIndexToLetter n) = n := by
  induction n using Nat.strong_induction_on with
  | _ n ih =>
    by_cases h : n = 0
    · subst h; rw [colIndexToLetter_zero]; rfl
    · rw [colIndexToLetter_pos n h, bij26Val_append_singleton]
      have hlt : (n - 1) / 26 < n :=
        Nat.lt_of_le_of_lt (Nat.div_le_self _ _) (Nat.pred_lt h)
      rw [ih _ hlt, toNat_ofNat_digit _ (Nat.mod_lt _ (by omega))]
      have := Nat.div_add_mod (n - 1) 26
      omega

lemma colIndexToLetter_isColLabel (n : Nat) (h : n ≠ 0) :
    isColLabel (colIndexToLetter n) = true := by
  induction n using Nat.strong_induction_on with
  | _ n ih =>
    rw [colIndexToLetter_pos n h]
    have hc : (Char.ofNat (65 + (n - 1) % 26)).toNat = 65 + (n - 1) % 26 :=
      toNat_ofNat_digit _ (Nat.mod_lt _ (by omega))
    have hrange : (n - 1) % 26 < 26 := Nat.mod_lt _ (by omega)
    by_cases h2 : (n - 1) / 26 = 0
    · rw [h2, colIndexToLetter_zero]
      simp only [isColLabel, List.nil_append, List.all_cons, List.all_nil,
        Bool.and_eq_true, decide_eq_true_eq]
      refine ⟨by simp, ?_, trivial⟩
      simp only [Bool.and_eq_true, decide_eq_true_eq, hc]
      omega
    · have hlt : (n - 1) / 26 < n :=
        Nat.lt_of_le_of_lt (Nat.div_le_self _ _) (Nat.pred_lt h)
      have hprev := ih _ hlt h2
      simp only [isColLabel, Bool.and_eq_true, decide_eq_true_eq,
        List.all_append, List.all_cons, List.all_nil] at hprev ⊢
      refine ⟨by simp, hprev.2, ?_, trivial⟩
      simp only [Bool.and_eq_true, decide_eq_true_eq, hc]
      omega

lemma foldl_bij_ge_one (u : List Char) (a : Nat) (ha : 1 ≤ a) :
    1 ≤ u.foldl (fun a c => a * 26 + (c.toNat - 64)) a := by
  induction u generalizing a with
  | nil => simpa using ha
  | cons x xs ihx =>
    simp only [List.foldl_cons]
    exact ihx _ (by omega)

lemma bij26Val_pos (s : List Char) (h : s ≠ [])
    (hall : s.all (fun c => 65 ≤ c.toNat && c.toNat ≤ 90) = true) :
    1 ≤ bij26Val s := by
  obtain ⟨s0, ss, rfl⟩ := List.exists_cons_of_ne_nil h
  simp only [List.all_cons, Bool.and_eq_true, decide_eq_true_eq] at hall
  simp only [bij26Val, List.foldl_cons]
  exact foldl_bij_ge_one ss _ (by omega)

lemma bij26Val_inj (s : List Char) : ∀ t, isColLabel s = true → isColLabel t = true →
    bij26Val s = bij26Val t → s = t := by
  induction s using List.reverseRecOn with
  | nil => intro t hs _ _; simp [isColLabel] at hs
  | append_singleton s c ihs =>
    intro t hs ht heq
    rcases List.eq_nil_or_concat' t with rfl | ⟨t', d, rfl⟩
    · simp [isColLabel] at ht
    · rw [bij26Val_append_singleton, bij26Val_append_singleton] at heq
      simp only [isColLabel, Bool.and_eq_true, decide_eq_true_eq,
        List.all_append, List.all_cons, List.all_nil] at hs ht
      obtain ⟨-, hsall, hcb, -⟩ := hs
      obtain ⟨-, htall, hdb, -⟩ := ht
      have hcd : c.toNat = d.toNat ∧ bij26Val s = bij26Val t' := by
        constructor <;> omega
      obtain ⟨hcdigit, hvaleq⟩ := hcd
      have hce : c = d := char_toNat_inj _ _ hcdigit
      subst hce
      have hst : s = t' := by
        by_cases hs0 : s = []
        · subst hs0
          by_cases ht0 : t' = []
          · exact ht0.symm
          · exfalso
            have h1 := bij26Val_pos t' ht0 htall
            have h0 : bij26Val ([] : List Char) = 0 := rfl
            rw [h0] at hvaleq
            omega
        · by_cases ht0 : t' = []
          · exfalso
            subst ht0
            have h1 := bij26Val_pos s hs0 hsall
            have h0 : bij26Val ([] : List Char) = 0 := rfl
            rw [h0] at hvaleq
            omega
          · refine ihs t' ?_ ?_ hvaleq
            · simp [isColLabel, hs0, hsall]
            · simp [isColLabel, ht0, htall]
      rw [hst]

/-- C10: for every `idx ≥ 1`, `_col_index_to_letter` returns the bijective
base-26 spreadsheet label over A-Z: a nonempty uppercase-letter string whose
bijective base-26 value equals `idx`, and the unique such string — so
partial-column updates address the correct cell for any column position. -/
theorem c10_col_index_to_letter (idx : Nat) (h : 1 ≤ idx) :
    isColLabel (colIndexToLetter idx) = true
    ∧ bij26Val (colIndexToLetter idx) = idx
    ∧ ∀ s, isColLabel s = true → bij26Val s = idx → s = colIndexToLetter idx := by
  refine ⟨colIndexToLetter_isColLabel idx (by omega), bij26Val_colIndexToLetter idx, ?_⟩
  intro s hcl hv
  exact bij26Val_inj s (colIndexToLetter idx) hcl
    (colIndexToLetter_isColLabel idx (by omega))
    (by rw [hv, bij26Val_colIndexToLetter])

/-- Witness for C10 at concrete columns: 1 → "A", 26 → "Z", 27 → "AA",
703 → "AAA", each a valid label with the right bijective base-26 value. -/
theorem c10_col_index_to_letter_witness :
    colIndexToLetter 1 = ['A'] ∧ colIndexToLetter 26 = ['Z']
    ∧ colIndexToLetter 27 = ['A', 'A'] ∧ colIndexToLetter 703 = ['A', 'A', 'A']
    ∧ bij26Val (colIndexToLetter 703) = 703
    ∧ isColLabel (colIndexToLetter 703) = true := by
  refine ⟨?_, ?_, ?_, ?_,
    (c10_col_index_to_letter 703 (by decide)).2.1,
    (c10_col_index_to_letter 703 (by decide)).1⟩ <;>
    · simp [colIndexToLetter_pos, colIndexToLetter_zero]

/-! ## `send_email.send_email` (Tools/send_email.py lines 90-118)

The send-with-retry loop:

```python
last_error = None
for attempt in range(MAX_RETRIES):
    try:
        with smtplib.SMTP(...) as server:
            server.starttls(); server.login(...); server.sendmail(...)
        return dict(status="sent", to_email=actual_recipient, subject=subject)
    except smtplib.SMTPAuthenticationError as e:
        raise RuntimeError(f"SMTP auth failed") from e
    except (smtplib.SMTPException, OSError) as e:
        last_error = e
        if attempt < MAX_RETRIES - 1:
            wait = [5, 10, 20][attempt]
            time.sleep(wait)
            continue
        raise
raise last_error
```

The SMTP session of each attempt is abstracted by an oracle
`outcomes : Nat → SmtpOutcome` giving the outcome of attempt number `att`.
The model records the observable behaviour as a trace of attempt and
sleep events plus the returned value / raised error. -/

/-- Outcome of one SMTP session attempt. -/
inductive SmtpOutcome
  | sent
  | authError
  | transportError
deriving DecidableEq

/-- Observable events of the dispatcher: a transmission attempt, or a
backoff sleep of a given number of seconds. -/
inductive SendEv
  | attempt
  | sleep (seconds : Nat)
deriving DecidableEq

/-- Errors `send_email` can raise: the non-retryable auth failure
(`RuntimeError` wrapping `SMTPAuthenticationError`) or a transport error
re-raised after retries are exhausted. -/
inductive SendErr
  | authFailed
  | transportFailed
deriving DecidableEq

/-- The confirmation dict returned on success. -/
structure SendResult where
  status : String
  toEmail : String
  subject : String
deriving DecidableEq

def MAX_RETRIES : Nat := 3

/-- The retry loop of `send_email`; `fuel` is the number of remaining loop
iterations (`range(MAX_RETRIES)`), `att` is Python's `attempt` counter.
The fuel-0 case is the dead `raise last_error` after the loop. -/
def sendLoop (outcomes : Nat → SmtpOutcome) (recipient subject : String) :
    Nat → Nat → List SendEv → List SendEv × Except SendErr SendResult
  | 0, _, trace => (trace, .error .transportFailed)
  | fuel + 1, att, trace =>
    let trace := trace ++ [SendEv.attempt]
    match outcomes att with
    | .sent => (trace, .ok ⟨"sent", recipient, subject⟩)
    | .authError => (trace, .error .authFailed)
    | .transportError =>
      if att < MAX_RETRIES - 1 then
        sendLoop outcomes recipient subject fuel (att + 1)
          (trace ++ [SendEv.sleep ([5, 10, 20].getD att 0)])
      else (trace, .error .transportFailed)

/-- `send_email` after message construction: run the retry loop from
attempt 0 with an empty trace. -/
def sendEmail (outcomes : Nat → SmtpOutcome) (recipient subject : String) :
    List SendEv × Except SendErr SendResult :=
  sendLoop outcomes recipient subject MAX_RETRIES 0 []

/-- C9: the dispatcher retries transmission up to 3 attempts with escalating
backoff (5s then 10s) on transport-level errors: a transport error on the
first two attempts followed by success on the third returns a sent
confirmation after exactly three transport attempts; an authentication
error makes it raise immediately after a single attempt, with zero retries
and no backoff sleeps. -/
theorem c9_send_email_retry (outcomes : Nat → SmtpOutcome) (recipient subject : String) :
    (outcomes 0 = .transportError → outcomes 1 = .transportError →
      outcomes 2 = .sent →
      sendEmail outcomes recipient subject
        = ([.attempt, .sleep 5, .attempt, .sleep 10, .attempt],
           .ok ⟨"sent", recipient, subject⟩))
    ∧ (outcomes 0 = .authError →
      sendEmail outcomes recipient subject = ([.attempt], .error .authFailed)) := by
  constructor
  · intro h0 h1 h2
    simp [sendEmail, sendLoop, h0, h1, h2, MAX_RETRIES]
  · intro h0
    simp [sendEmail, sendLoop, h0, MAX_RETRIES]

/-- Witness for C9 on concrete oracles: two transport failures then success
gives three attempts with 5s/10s sleeps; an authentication failure gives a
single attempt and an immediate error. -/
theorem c9_send_email_retry_witness :
    sendEmail (fun n => if n < 2 then .transportError else .sent) "a@b.nl" "hi"
      = ([.attempt, .sleep 5, .attempt, .sleep 10, .attempt],
         .ok ⟨"sent", "a@b.nl", "hi"⟩)
    ∧ sendEmail (fun _ => .authError) "a@b.nl" "hi" = ([.attempt], .error .authFailed) :=
  ⟨(c9_send_email_retry _ _ _).1 rfl rfl rfl, (c9_send_email_retry _ _ _).2 rfl⟩

/-! ## `fetch_reviews.fetch` (Tools/fetch_reviews.py lines 27-98)

The whole network interaction of the `try:` block — the GET request,
`raise_for_status`, and `r.json()` — is abstracted by a
`remote : Except PyExc PlacesResponse` parameter: `.error` when any of it
raises, `.ok` with the parsed payload otherwise. The function body is a
total function: every raising path is inside the `try/except` which
returns the empty record, so the model returns `PlaceData` (not `Except`),
mirroring "never raises". -/

/-- A Python exception: class name and message. -/
structure PyExc where
  cls : String
  msg : String
deriving DecidableEq

/-- A raw review from the Places payload. -/
structure RawReview where
  author_name : String
  rating : Nat
  text : List Char
  relative_time_description : String

/-- The parsed Places API payload: top-level `status` and the
`result.reviews` / `result.photos` lists (each photo's
`photo_reference`, which may be absent). -/
structure PlacesResponse where
  status : String
  resultReviews : List RawReview
  resultPhotos : List (Option String)

/-- One review of the returned record. -/
structure Review where
  author : String
  rating : Nat
  text : List Char
  time_ago : String

/-- The record returned by `fetch`. -/
structure PlaceData where
  reviews : List Review
  photos : List String

def PHOTO_BASE : String := "https://maps.googleapis.com/maps/api/place/photo"

/-- The photo URL built for one `photo_reference`. -/
def photoUrl (apiKey ref : String) : String :=
  PHOTO_BASE ++ "?maxwidth=1200" ++ "&photo_reference=" ++ ref ++ "&key=" ++ apiKey

/-- `fetch_reviews.fetch`. `if not place_id or not place_id.strip()` is
equivalent to `place_id.strip() == ""`; `GOOGLE_MAPS_API_KEY` is the
`apiKey` parameter (`none` when unset). -/
def fetchPlace (placeId : List Char) (apiKey : Option String)
    (remote : Except PyExc PlacesResponse) (maxReviews maxPhotos : Nat) : PlaceData :=
  if stripL placeId = [] then ⟨[], []⟩
  else
    match apiKey with
    | none => ⟨[], []⟩
    | some key =>
      match remote with
      | .error _ => ⟨[], []⟩
      | .ok data =>
        if data.status ≠ "OK" then ⟨[], []⟩
        else
          let reviews := (data.resultReviews.take maxReviews).filterMap fun rev =>
            let text := stripL rev.text
            if text = [] then none
            else some ⟨rev.author_name, rev.rating, text, rev.relative_time_description⟩
          let photos := (data.resultPhotos.take maxPhotos).filterMap fun ref? =>
            match ref? with
            | none => none
            | some ref => if ref = "" then none else some (photoUrl key ref)
          ⟨reviews, photos⟩

/-- C7: the reputation fetcher never raises (it is a total function of the
abstracted environment), and it returns exactly the empty record
(no reviews, no photos) whenever the identifier is blank, the credential
is absent, the remote call raises, or the remote response reports a
non-success status. -/
theorem c7_fetch_reviews_empty (placeId : List Char) (apiKey : Option String)
    (remote : Except PyExc PlacesResponse) (maxReviews maxPhotos : Nat)
    (h : stripL placeId = [] ∨ apiKey = none ∨ (∃ e, remote = .error e)
        ∨ (∀ data, remote = .ok data → data.status ≠ "OK")) :
    (fetchPlace placeId apiKey remote maxReviews maxPhotos).reviews = []
    ∧ (fetchPlace placeId apiKey remote maxReviews maxPhotos).photos = [] := by
  rcases h with h | h | ⟨e, rfl⟩ | h
  · simp [fetchPlace, h]
  · subst h; unfold fetchPlace; by_cases hb : stripL placeId = [] <;> simp [hb]
  · unfold fetchPlace; by_cases hb : stripL placeId = [] <;> cases apiKey <;> simp [hb]
  · unfold fetchPlace
    by_cases hb : stripL placeId = []
    · simp [hb]
    · cases apiKey with
      | none => simp [hb]
      | some key =>
        cases remote with
        | error e => simp [hb]
        | ok data => simp [hb, h data rfl]

/-- Witness for C7: a non-success remote status with nonempty raw payload
still yields the empty record. -/
theorem c7_fetch_reviews_empty_witness :
    (fetchPlace ('x' :: []) (some "key")
        (.ok ⟨"REQUEST_DENIED", [⟨"a", 5, ['g', 'o', 'o', 'd'], "a week ago"⟩],
          [some "photoref"]⟩) 5 6).reviews = []
    ∧ (fetchPlace ('x' :: []) (some "key")
        (.ok ⟨"REQUEST_DENIED", [⟨"a", 5, ['g', 'o', 'o', 'd'], "a week ago"⟩],
          [some "photoref"]⟩) 5 6).photos = [] := by
  refine c7_fetch_reviews_empty _ _ _ _ _ (Or.inr (Or.inr (Or.inr ?_)))
  intro data hdata
  injection hdata with hdata
  rw [← hdata]
  decide

/-! ## `scrape_website` truncation (Tools/scrape_website.py lines 55-60, 110-112)

Both `_scrape_single` and `_crawl_site` post-process their markdown text
the same way before returning:

```python
text = re.sub(r"\n\x7b3,\x7d", "\n\n", text).strip()
return text[:max_chars] + "..." if len(text) > max_chars else text
```

(the regex collapses every run of 3 or more newlines to exactly two).
A greedy maximal-run replacement keeping exactly two newlines of each run
of three or more is the same as keeping at most the first two newlines of
every run, which is how `collapseNewlinesGo` scans. -/

/-- Collapse runs of 3+ newlines to exactly two: keep at most the first two
newlines of every newline run. `seen` counts consecutive newlines just
emitted. -/
def collapseNewlinesGo : Nat → List Char → List Char
  | _, [] => []
  | seen, c :: rest =>
    if c = '\n' then
      if seen ≥ 2 then collapseNewlinesGo seen rest
      else '\n' :: collapseNewlinesGo (seen + 1) rest
    else c :: collapseNewlinesGo 0 rest

/-- `re.sub(r"\n\x7b3,\x7d", "\n\n", text)`. -/
def collapseNewlines (s : List Char) : List Char := collapseNewlinesGo 0 s

/-- `text[:max_chars] + "..." if len(text) > max_chars else text`. -/
def truncateWithEllipsis (t : List Char) (maxChars : Nat) : List Char :=
  if t.length > maxChars then t.take maxChars ++ ['.', '.', '.'] else t

/-- The shared result post-processing of `_scrape_single` and `_crawl_site`:
collapse blank runs, strip, then truncate with the ellipsis marker. -/
def scrapeResult (raw : List Char) (maxChars : Nat) : List Char :=
  truncateWithEllipsis (stripL (collapseNewlines raw)) maxChars

/-- Counterexample to C6 as stated: with `max_chars = 1` and page text
"ab", the result is "a..." of length 4, so the result string is not capped
at `max_chars` characters. -/
theorem c6_truncation_counterexample :
    ¬ ((scrapeResult ['a', 'b'] 1).length ≤ 1) := by decide

/-- C6 (amended): the fetcher's result is the cleaned text capped at
`max_chars` content characters with a three-character ellipsis appended
exactly when the content was cut, so the whole result has at most
`max_chars + 3` characters; no marker is appended when nothing was cut. -/
theorem c6_truncation_amended (raw : List Char) (maxChars : Nat) :
    (scrapeResult raw maxChars).length ≤ maxChars + 3
    ∧ ((stripL (collapseNewlines raw)).length > maxChars →
        scrapeResult raw maxChars
          = (stripL (collapseNewlines raw)).take maxChars ++ ['.', '.', '.'])
    ∧ ((stripL (collapseNewlines raw)).length ≤ maxChars →
        scrapeResult raw maxChars = stripL (collapseNewlines raw)) := by
  refine ⟨?_, ?_, ?_⟩
  · unfold scrapeResult truncateWithEllipsis
    by_cases h : (stripL (collapseNewlines raw)).length > maxChars
    · simp only [h, if_true, List.length_append, List.length_take,
        List.length_cons, List.length_nil]
      omega
    · simp only [h, if_false]
      omega
  · intro h
    simp [scrapeResult, truncateWithEllipsis, h]
  · intro h
    simp [scrapeResult, truncateWithEllipsis, Nat.not_lt.mpr h]

/-- Witness for C6 (amended) at concrete inputs: "ab" with cap 5 is
returned whole; "abcdef" with cap 3 comes back as "abc..." of length 6. -/
theorem c6_truncation_amended_witness :
    scrapeResult ['a', 'b'] 5 = ['a', 'b']
    ∧ scrapeResult ['a', 'b', 'c', 'd', 'e', 'f'] 3
        = ['a', 'b', 'c', '.', '.', '.'] := by
  constructor
  · exact (c6_truncation_amended ['a', 'b'] 5).2.2 (by decide)
  · have := (c6_truncation_amended ['a', 'b', 'c', 'd', 'e', 'f'] 3).2.1 (by decide)
    rw [this]
    decide

/-! ## `read_sheet.get_go_rows` (Tools/read_sheet.py lines 22-56)

```python
headers = all_values[0]
rows = []
for row_idx, row_values in enumerate(all_values[1:], start=2):
    while len(row_values) < len(headers):
        row_values.append("")
    row_dict = dict(zip(headers, row_values))
    row_dict["_row"] = row_idx
    if row_dict.get("Status", "").strip().upper() == "GO":
        rows.append(row_dict)
        if limit and len(rows) >= limit:
            break
return rows
```

A selected row is modelled as its sheet row number (the `_row` annotation)
paired with the header-to-cell association list. `limit` is a Python int
(`None` behaves exactly like `0`: both are falsy in `if limit and ...`),
modelled as an `Int`. -/

/-- Python `str.strip()` on a `String`. -/
def pyStrip (s : String) : String := String.mk (stripL s.toList)

/-- Python `str.upper()` on a `String` (ASCII data; per-character upcasing). -/
def pyUpper (s : String) : String := String.mk (s.toList.map Char.toUpper)

/-- The trigger predicate: `.strip().upper() == "GO"`. -/
def isGo (s : String) : Bool := pyUpper (pyStrip s) == "GO"

/-- `dict(zip(headers, row)).get(k, "")`: with duplicate header names the
later column wins, as in a Python dict built from `zip`. -/
def dictGet (pairs : List (String × String)) (k : String) : String :=
  match pairs.reverse.find? (fun p => p.1 == k) with
  | some p => p.2
  | none => ""

/-- `while len(row_values) < len(headers): row_values.append("")`. -/
def padRow (headers : List String) (vals : List String) : List String :=
  vals ++ List.replicate (headers.length - vals.length) ""

/-- `enumerate(…, start=n)`. -/
def numberFrom {α : Type} : Nat → List α → List (Nat × α)
  | _, [] => []
  | n, x :: xs => (n, x) :: numberFrom (n + 1) xs

/-- All data rows of the sheet as (row number, padded header-cell dict),
numbered from 2 (row 1 is the header row). -/
def sheetRowDicts (headers : List String) (rest : List (List String)) :
    List (Nat × List (String × String)) :=
  (numberFrom 2 rest).map (fun p => (p.1, headers.zip (padRow headers p.2)))

/-- The selection loop: append rows whose Status triggers, breaking once
`limit and len(rows) >= limit`. -/
def goRowsLoop (limit : Int) :
    List (Nat × List (String × String)) → List (Nat × List (String × String)) →
    List (Nat × List (String × String))
  | [], acc => acc.reverse
  | r :: rs, acc =>
    if isGo (dictGet r.2 "Status") then
      let acc' := r :: acc
      if limit ≠ 0 ∧ limit ≤ (acc'.length : Int) then acc'.reverse
      else goRowsLoop limit rs acc'
    else goRowsLoop limit rs acc

/-- `read_sheet.get_go_rows` on the sheet contents `all_values`. -/
def getGoRows (allValues : List (List String)) (limit : Int) :
    List (Nat × List (String × String)) :=
  match allValues with
  | [] => []
  | headers :: rest => goRowsLoop limit (sheetRowDicts headers rest) []

/-- The selection the spec describes: the data rows whose Status value,
trimmed and uppercased, equals "GO", in sheet order (to be capped at the
batch limit). -/
def goRowsSpec (allValues : List (List String)) :
    List (Nat × List (String × String)) :=
  match allValues with
  | [] => []
  | headers :: rest =>
    (sheetRowDicts headers rest).filter (fun r => isGo (dictGet r.2 "Status"))

lemma goRowsLoop_eq (limit : Int) (h1 : 1 ≤ limit)
    (rs : List (Nat × List (String × String))) :
    ∀ acc : List (Nat × List (String × String)), (acc.length : Int) < limit →
      goRowsLoop limit rs acc
        = acc.reverse
          ++ (rs.filter (fun r => isGo (dictGet r.2 "Status"))).take
              (limit.toNat - acc.length) := by
  induction rs with
  | nil => intro acc _; simp [goRowsLoop]
  | cons r rs ih =>
    intro acc hacc
    by_cases hgo : isGo (dictGet r.2 "Status")
    · simp only [goRowsLoop, hgo, if_true]
      by_cases hbrk : limit ≤ ((r :: acc).length : Int)
      · have hne : limit ≠ 0 := by omega
        simp only [hne, hbrk, ne_eq, not_false_eq_true, true_and, if_true]
        have hone : limit.toNat - acc.length = 1 := by
          simp only [List.length_cons] at hbrk
          omega
        simp [List.filter_cons, hgo, hone]
      · simp only [List.length_cons] at hbrk
        have : ¬ (limit ≠ 0 ∧ limit ≤ ((r :: acc).length : Int)) := by
          simp only [List.length_cons]
          omega
        simp only [this, if_false]
        rw [ih (r :: acc) (by simp; omega)]
        have harith : limit.toNat - acc.length
            = (limit.toNat - (r :: acc).length) + 1 := by
          simp only [List.length_cons]
          omega
        simp [List.filter_cons, hgo, harith, List.take_succ_cons]
    · simp only [goRowsLoop, hgo, if_false]
      rw [ih acc hacc]
      simp [List.filter_cons, hgo]

lemma numberFrom_mem_fst {α : Type} (n : Nat) (l : List α) :
    ∀ p ∈ numberFrom n l, n ≤ p.1 := by
  induction l generalizing n with
  | nil => intro p hp; simp [numberFrom] at hp
  | cons x xs ih =>
    intro p hp
    simp only [numberFrom, List.mem_cons] at hp
    rcases hp with rfl | hp
    · exact le_refl _
    · exact Nat.le_of_succ_le (ih (n + 1) p hp)

lemma numberFrom_fst_pairwise {α : Type} (n : Nat) (l : List α) :
    ((numberFrom n l).map Prod.fst).Pairwise (· < ·) := by
  induction l generalizing n with
  | nil => simp [numberFrom]
  | cons x xs ih =>
    simp only [numberFrom, List.map_cons, List.pairwise_cons]
    constructor
    · intro m hm
      simp only [List.mem_map] at hm
      obtain ⟨p, hp, rfl⟩ := hm
      exact Nat.lt_of_succ_le (numberFrom_mem_fst (n + 1) xs p hp)
    · exact ih (n + 1)

/-- With `limit = 0` (equally: `None`) the break guard
`if limit and len(rows) >= limit` is falsy on every iteration, so the loop
runs to the end of the sheet. -/
lemma goRowsLoop_zero (rs : List (Nat × List (String × String))) :
    ∀ acc : List (Nat × List (String × String)),
      goRowsLoop 0 rs acc
        = acc.reverse ++ rs.filter (fun r => isGo (dictGet r.2 "Status")) := by
  induction rs with
  | nil => intro acc; simp [goRowsLoop]
  | cons r rs ih =>
    intro acc
    by_cases hgo : isGo (dictGet r.2 "Status")
    · simp only [goRowsLoop, hgo, if_true]
      have hguard : ¬((0 : Int) ≠ 0 ∧ (0 : Int) ≤ ((r :: acc).length : Int)) := by
        simp
      simp only [hguard, if_false]
      rw [ih (r :: acc)]
      simp [List.filter_cons, hgo]
    · simp only [goRowsLoop, hgo, if_false]
      rw [ih acc]
      simp [List.filter_cons, hgo]

/-- The selected row numbers of the full GO filter are strictly
increasing. -/
lemma goRowsSpec_fst_pairwise (allValues : List (List String)) :
    ((goRowsSpec allValues).map Prod.fst).Pairwise (· < ·) := by
  match allValues with
  | [] => simp [goRowsSpec]
  | headers :: rest =>
    have hpw : ((sheetRowDicts headers rest).map Prod.fst).Pairwise (· < ·) := by
      have : (sheetRowDicts headers rest).map Prod.fst
          = (numberFrom 2 rest).map Prod.fst := by
        simp [sheetRowDicts, List.map_map, Function.comp]
      rw [this]
      exact numberFrom_fst_pairwise 2 rest
    have hsub : List.Sublist (goRowsSpec (headers :: rest))
        (sheetRowDicts headers rest) := by
      simp only [goRowsSpec]
      exact List.filter_sublist _
    exact hpw.sublist (hsub.map Prod.fst)

/-- Counterexample to C2 as stated: with `limit = 0` (equally: `None`) the
loop's break guard `if limit and len(rows) >= limit` is never taken, so on
a sheet with two GO rows the selection returns both rows instead of
stopping at the limit of 0. -/
theorem c2_go_selection_counterexample :
    ¬ ((getGoRows [["Status"], ["GO"], ["GO"]] 0).length ≤ 0) := by decide

/-- C2 (amended): for every sheet contents and every positive limit, the
selection returns exactly the rows whose Status, trimmed and uppercased,
equals "GO", in ascending row order, cut off at the limit; the selected
row numbers are strictly increasing, so each eligible row appears at most
once. A limit of 0 (or None) disables the cap and returns all matching
rows, again in ascending row order. -/
theorem c2_go_selection (allValues : List (List String)) (limit : Int) :
    (1 ≤ limit →
      getGoRows allValues limit = (goRowsSpec allValues).take limit.toNat
      ∧ ((getGoRows allValues limit).map Prod.fst).Pairwise (· < ·))
    ∧ (limit = 0 →
      getGoRows allValues limit = goRowsSpec allValues
      ∧ ((getGoRows allValues limit).map Prod.fst).Pairwise (· < ·)) := by
  constructor
  · intro h
    have hmain : getGoRows allValues limit = (goRowsSpec allValues).take limit.toNat := by
      match allValues with
      | [] => simp [getGoRows, goRowsSpec]
      | headers :: rest =>
        simp only [getGoRows, goRowsSpec]
        rw [goRowsLoop_eq limit h _ [] (by simp; omega)]
        simp
    refine ⟨hmain, ?_⟩
    rw [hmain]
    exact (goRowsSpec_fst_pairwise allValues).sublist
      ((List.take_sublist _ _).map Prod.fst)
  · intro h
    subst h
    have hmain : getGoRows allValues 0 = goRowsSpec allValues := by
      match allValues with
      | [] => simp [getGoRows, goRowsSpec]
      | headers :: rest =>
        simp only [getGoRows, goRowsSpec]
        rw [goRowsLoop_zero _ []]
        simp
    refine ⟨hmain, ?_⟩
    rw [hmain]
    exact goRowsSpec_fst_pairwise allValues

/-- Witness for C2 (amended) on a concrete sheet: rows 2 and 4 trigger
(case-insensitively, after trimming), row 3 does not; with limit 2 both
are returned in row order, and with limit 0 the cap is disabled and the
same full GO filter comes back. -/
theorem c2_go_selection_witness :
    getGoRows [["Status"], ["GO"], ["stop"], [" go"]] 2
      = [(2, [("Status", "GO")]), (4, [("Status", " go")])]
    ∧ getGoRows [["Status"], ["GO"], ["stop"], [" go"]] 0
      = [(2, [("Status", "GO")]), (4, [("Status", " go")])] := by
  constructor
  · have h := ((c2_go_selection [["Status"], ["GO"], ["stop"], [" go"]] 2).1 (by decide)).1
    rw [h]
    decide
  · have h := ((c2_go_selection [["Status"], ["GO"], ["stop"], [" go"]] 0).2 rfl).1
    rw [h]
    decide

/-! ## `run_pipeline.run` (Tools/run_pipeline.py lines 39-147)

The per-row stage sequence is modelled as a trace of observable events:
row-store writes (`update_sheet.update_row(sheet, row_num, updates)`,
Tools/update_sheet.py lines 35-57, recorded with their update dict) and
stage invocations. Row-store writes are modelled as always succeeding, as
are `fetch_reviews.fetch` / `format_for_prompt` (total, see `fetchPlace`)
and the local HTML debug file write; the fallible stages — scrape, build,
deploy, draft, send — are abstracted by `Except` outcomes. `run` returns
`None` on every path (each row body sits in a `try/except` whose handler
only writes ERROR and does not re-raise) and `main` never calls
`sys.exit`, so the orchestrator process exit code is 0, which
`runExitCode` records. -/

/-- Observable events of one orchestrator run. -/
inductive Ev
  | write (rowNum : Nat) (updates : List (String × String))
  | callScrape
  | callFetchReviews
  | callBuild
  | callDeploy
  | callDraft
  | callSend
deriving DecidableEq

/-- Stage outcomes of one row, plus the `datetime.now()` timestamp string. -/
structure StageOutcomes where
  scrape : Except PyExc String
  build : Except PyExc String
  deploy : Except PyExc String
  draft : Except PyExc String
  send : Except PyExc SendResult
  sentDate : String

/-- `f"\x7btype(e).__name__\x7d: \x7be\x7d"` — class name, colon, message. -/
def excText (e : PyExc) : String := e.cls ++ ": " ++ e.msg

/-- `error_msg[:500]` — the Notes value written on failure. -/
def notesOf (e : PyExc) : String := String.mk ((excText e).toList.take 500)

/-- `row.get("Email Status", "").strip().upper()`. -/
def emailFlag (row : List (String × String)) : String :=
  pyUpper (pyStrip (dictGet row "Email Status"))

/-- `email_status in ("BLACKLISTED", "INVALID")`. -/
def emailBlocked (row : List (String × String)) : Bool :=
  emailFlag row == "BLACKLISTED" || emailFlag row == "INVALID"

/-- `row.get("Email", "").strip()`. -/
def recipient (row : List (String × String)) : String :=
  pyStrip (dictGet row "Email")

/-- The `try:` block of `run`'s per-row loop: the event trace it produces,
plus the exception escaping it, if any. -/
def rowBody (rowNum : Nat) (row : List (String × String)) (o : StageOutcomes) :
    List Ev × Option PyExc :=
  let t0 := [Ev.write rowNum [("Status", "SCRAPING")], Ev.callScrape]
  match o.scrape with
  | .error e => (t0, some e)
  | .ok _ =>
    let t1 := t0 ++ [Ev.callFetchReviews,
      Ev.write rowNum [("Status", "BUILDING")], Ev.callBuild]
    match o.build with
    | .error e => (t1, some e)
    | .ok _ =>
      let t2 := t1 ++ [Ev.write rowNum [("Status", "DEPLOYING")], Ev.callDeploy]
      match o.deploy with
      | .error e => (t2, some e)
      | .ok liveUrl =>
        let t3 := t2 ++
          [Ev.write rowNum [("Status", "Deployed"), ("Preview URL", liveUrl)]]
        if emailBlocked row then
          (t3 ++ [Ev.write rowNum [("Status", "Deployed")]], none)
        else
          let t4 := t3 ++ [Ev.write rowNum [("Status", "EMAILING")], Ev.callDraft]
          match o.draft with
          | .error e => (t4, some e)
          | .ok emailBody =>
            let t5 := t4 ++ [Ev.write rowNum
              [("Status", "Email Draft Written"), ("Email Draft", emailBody)]]
            if recipient row == "" then
              (t5 ++ [Ev.write rowNum [("Status", "Email Draft Written")]], none)
            else
              let t6 := t5 ++ [Ev.write rowNum [("Status", "SENDING")], Ev.callSend]
              match o.send with
              | .error e => (t6, some e)
              | .ok _ =>
                (t6 ++ [Ev.write rowNum
                  [("Status", "Email sent succesfully"), ("Sent Date", o.sentDate)]],
                 none)

/-- One iteration of the row loop: the `try:` body plus the
`except Exception` handler, which appends the ERROR write with the
truncated note and swallows the exception. -/
def processRow (rowNum : Nat) (row : List (String × String)) (o : StageOutcomes) :
    List Ev :=
  match rowBody rowNum row o with
  | (t, none) => t
  | (t, some e) =>
    t ++ [Ev.write rowNum [("Status", "ERROR"), ("Notes", notesOf e)]]

/-- The whole batch loop of `run`: each selected row is processed in
order, unconditionally followed by the next. -/
def runTrace : List (Nat × List (String × String) × StageOutcomes) → List Ev
  | [] => []
  | (rn, row, o) :: rest => processRow rn row o ++ runTrace rest

/-- The orchestrator's process exit code: `run` returns normally for every
batch (per-row exceptions are contained by the handler) and `main` never
calls `sys.exit`, so the process exits 0. -/
def runExitCode (_ : List (Nat × List (String × String) × StageOutcomes)) : Nat := 0

/-- C1: a row whose processing raises at any stage ends with a write of
Status = ERROR and a Notes value built from the exception class name and
message truncated to at most 500 characters; the batch continues with the
remaining rows, and the orchestrator exit code is 0 regardless. -/
theorem c1_row_error_containment (rowNum : Nat) (row : List (String × String))
    (o : StageOutcomes) (rest : List (Nat × List (String × String) × StageOutcomes))
    (e : PyExc) (h : (rowBody rowNum row o).2 = some e) :
    (processRow rowNum row o).getLast?
      = some (Ev.write rowNum [("Status", "ERROR"), ("Notes", notesOf e)])
    ∧ (notesOf e).length ≤ 500
    ∧ runTrace ((rowNum, row, o) :: rest) = processRow rowNum row o ++ runTrace rest
    ∧ runExitCode ((rowNum, row, o) :: rest) = 0 := by
  refine ⟨?_, ?_, rfl, rfl⟩
  · rcases hb : rowBody rowNum row o with ⟨t, exc⟩
    rw [hb] at h
    simp only at h
    subst h
    simp [processRow, hb]
  · show (String.mk ((excText e).toList.take 500)).length ≤ 500
    have : (String.mk ((excText e).toList.take 500)).length
        = ((excText e).toList.take 500).length := rfl
    rw [this, List.length_take]
    omega

/-- Witness for C1: a scrape failure on row 5 produces the truncated ERROR
note as the final write, the next row is still processed, and the run
exits 0. -/
theorem c1_row_error_containment_witness :
    (processRow 5 [] ⟨.error ⟨"RuntimeError", "boom"⟩, .ok "h", .ok "u",
        .ok "b", .ok ⟨"sent", "r", "s"⟩, "2025-01-01 10:00"⟩).getLast?
      = some (Ev.write 5 [("Status", "ERROR"),
          ("Notes", notesOf ⟨"RuntimeError", "boom"⟩)])
    ∧ (notesOf ⟨"RuntimeError", "boom"⟩).length ≤ 500 := by
  have h := c1_row_error_containment 5 []
    ⟨.error ⟨"RuntimeError", "boom"⟩, .ok "h", .ok "u",
      .ok "b", .ok ⟨"sent", "r", "s"⟩, "2025-01-01 10:00"⟩ [] ⟨"RuntimeError", "boom"⟩ rfl
  exact ⟨h.1, h.2.1⟩

/-- True when some write event of the trace updates column `k`. -/
def writesKey (t : List Ev) (k : String) : Bool :=
  t.any fun ev =>
    match ev with
    | Ev.write _ kvs => kvs.any (fun kv => kv.1 == k)
    | _ => false

/-- C3: a selected row whose scrape, build and deploy stages succeed and
whose Email Status, trimmed and uppercased, is BLACKLISTED or INVALID is
finalized at Status = Deployed with no Email Draft or Sent Date column
ever written and no mail-relay call; a row that passes that check (with a
successful draft stage) but has a blank Email field is finalized at
Status = Email Draft Written with no mail-relay call. -/
theorem c3_deployed_branch (rowNum : Nat) (row : List (String × String))
    (o : StageOutcomes) (sTxt htmlTxt urlTxt : String)
    (hs : o.scrape = .ok sTxt) (hb : o.build = .ok htmlTxt)
    (hd : o.deploy = .ok urlTxt) :
    (emailBlocked row = true →
      (processRow rowNum row o).getLast?
        = some (Ev.write rowNum [("Status", "Deployed")])
      ∧ writesKey (processRow rowNum row o) "Email Draft" = false
      ∧ writesKey (processRow rowNum row o) "Sent Date" = false
      ∧ (processRow rowNum row o).contains Ev.callSend = false)
    ∧ (emailBlocked row = false → ∀ bodyTxt, o.draft = .ok bodyTxt →
        recipient row = "" →
      (processRow rowNum row o).getLast?
        = some (Ev.write rowNum [("Status", "Email Draft Written")])
      ∧ (processRow rowNum row o).contains Ev.callSend = false) := by
  constructor
  · intro hflag
    simp [processRow, rowBody, hs, hb, hd, hflag, writesKey, List.contains_cons]
  · intro hflag bodyTxt hdr hrec
    have hrec' : (recipient row == "") = true := by
      simp [hrec]
    simp [processRow, rowBody, hs, hb, hd, hflag, hdr, hrec', List.contains_cons]

/-- Witness for C3 at a concrete row with Email Status "invalid" (matched
case-insensitively): finalized at Deployed, no Email Draft or Sent Date
writes, no send call. -/
theorem c3_deployed_branch_witness :
    (processRow 3 [("Email Status", "invalid"), ("Email", "a@b.nl")]
        ⟨.ok "s", .ok "h", .ok "u", .ok "b", .ok ⟨"sent", "r", "s"⟩, "d"⟩).getLast?
      = some (Ev.write 3 [("Status", "Deployed")])
    ∧ writesKey (processRow 3 [("Email Status", "invalid"), ("Email", "a@b.nl")]
        ⟨.ok "s", .ok "h", .ok "u", .ok "b", .ok ⟨"sent", "r", "s"⟩, "d"⟩)
        "Email Draft" = false
    ∧ writesKey (processRow 3 [("Email Status", "invalid"), ("Email", "a@b.nl")]
        ⟨.ok "s", .ok "h", .ok "u", .ok "b", .ok ⟨"sent", "r", "s"⟩, "d"⟩)
        "Sent Date" = false
    ∧ (processRow 3 [("Email Status", "invalid"), ("Email", "a@b.nl")]
        ⟨.ok "s", .ok "h", .ok "u", .ok "b", .ok ⟨"sent", "r", "s"⟩, "d"⟩).contains
        Ev.callSend = false := by
  have h := (c3_deployed_branch 3 [("Email Status", "invalid"), ("Email", "a@b.nl")]
    ⟨.ok "s", .ok "h", .ok "u", .ok "b", .ok ⟨"sent", "r", "s"⟩, "d"⟩
    "s" "h" "u" rfl rfl rfl).1 (by decide)
  exact h

/-- The status value that must already have been written when a given
stage call happens: the five stage statuses of §4.4. -/
def requiredStatus : Ev → Option String
  | Ev.callScrape => some "SCRAPING"
  | Ev.callBuild => some "BUILDING"
  | Ev.callDeploy => some "DEPLOYING"
  | Ev.callDraft => some "EMAILING"
  | Ev.callSend => some "SENDING"
  | _ => none

/-- The Status values a single event writes. -/
def statusesOf : Ev → List String
  | Ev.write _ kvs =>
    kvs.filterMap (fun kv => if kv.1 == "Status" then some kv.2 else none)
  | _ => []

/-- Scanning checker: every stage call of the trace is preceded by a write
of that stage's status (`seen` = statuses already written). -/
def persistOk : List Ev → List String → Bool
  | [], _ => true
  | ev :: rest, seen =>
    (match requiredStatus ev with
     | some s => seen.contains s
     | none => true)
    && persistOk rest (seen ++ statusesOf ev)

lemma persistOk_spec (t : List Ev) : ∀ seen, persistOk t seen = true →
    ∀ i (hi : i < t.length) s, requiredStatus (t.get ⟨i, hi⟩) = some s →
      s ∈ seen ∨ ∃ j, ∃ hj : j < t.length, j < i ∧ s ∈ statusesOf (t.get ⟨j, hj⟩) := by
  induction t with
  | nil => intro seen _ i hi; simp at hi
  | cons ev rest ih =>
    intro seen hok i hi s hreq
    simp only [persistOk, Bool.and_eq_true] at hok
    match i with
    | 0 =>
      left
      simp only [List.get] at hreq
      rw [hreq] at hok
      have := hok.1
      simpa [List.elem_iff] using this
    | i + 1 =>
      have hi' : i < rest.length := by simpa using hi
      have hreq' : requiredStatus (rest.get ⟨i, hi'⟩) = some s := by
        simpa [List.get] using hreq
      rcases ih (seen ++ statusesOf ev) hok.2 i hi' s hreq' with hmem | ⟨j, hj, hlt, hjs⟩
      · rcases List.mem_append.mp hmem with hmem | hmem
        · exact Or.inl hmem
        · right
          exact ⟨0, by simp, Nat.succ_pos i, by simpa [List.get] using hmem⟩
      · right
        refine ⟨j + 1, by simpa using Nat.succ_lt_succ hj, Nat.succ_lt_succ hlt, ?_⟩
        simpa [List.get] using hjs

lemma persistOk_processRow (rowNum : Nat) (row : List (String × String))
    (o : StageOutcomes) : persistOk (processRow rowNum row o) [] = true := by
  rcases o with ⟨oscrape, obuild, odeploy, odraft, osend, osent⟩
  cases oscrape <;> cases obuild <;> cases odeploy <;> cases odraft <;> cases osend <;>
    cases hf : emailBlocked row <;> cases hr : recipient row == "" <;>
      simp [processRow, rowBody, hf, hr, persistOk, statusesOf, requiredStatus]

/-- C4: every stage call in a row's trace (scrape, build, deploy, draft,
send) is strictly preceded by a row-store write of that stage's status
value (SCRAPING, BUILDING, DEPLOYING, EMAILING, SENDING), so an
interruption during a stage leaves the row showing that stage's status. -/
theorem c4_status_persisted_before_stage (rowNum : Nat)
    (row : List (String × String)) (o : StageOutcomes)
    (i : Nat) (hi : i < (processRow rowNum row o).length) (s : String)
    (hreq : requiredStatus ((processRow rowNum row o).get ⟨i, hi⟩) = some s) :
    ∃ j, ∃ hj : j < (processRow rowNum row o).length, j < i
      ∧ s ∈ statusesOf ((processRow rowNum row o).get ⟨j, hj⟩) := by
  rcases persistOk_spec (processRow rowNum row o) []
      (persistOk_processRow rowNum row o) i hi s hreq with h | h
  · simp at h
  · exact h

/-- Witness for C4: in a fully successful row trace, the scrape call at
index 1 is preceded by the SCRAPING status write (at index 0). -/
theorem c4_status_persisted_before_stage_witness :
    ∃ j, ∃ hj : j < (processRow 2 []
        ⟨.ok "s", .ok "h", .ok "u", .ok "b", .ok ⟨"sent", "r", "s"⟩, "d"⟩).length,
      j < 1 ∧ "SCRAPING" ∈ statusesOf ((processRow 2 []
        ⟨.ok "s", .ok "h", .ok "u", .ok "b", .ok ⟨"sent", "r", "s"⟩, "d"⟩).get ⟨j, hj⟩) :=
  c4_status_persisted_before_stage 2 []
    ⟨.ok "s", .ok "h", .ok "u", .ok "b", .ok ⟨"sent", "r", "s"⟩, "d"⟩
    1 (by decide) "SCRAPING" (by decide)

/-! ## `build_website.build_website` HTML extraction (Tools/build_website.py lines 131-149)

```python
html = None
for block in reversed(response.content):
    if getattr(block, "type", None) == "text":
        html = block.text
        break
if not html:
    raise RuntimeError("Claude returned no text content block")
html = re.sub(r"^```html?\s*\n?", "", html, flags=re.IGNORECASE)
html = re.sub(r"\n?```\s*$", "", html)
html = html.strip()
if not html.lower().startswith("<!doctype") and not html.lower().startswith("<html"):
    raise RuntimeError(f"Claude output doesn't look like HTML. ...")
return html
```

The first regex matches at the start of the string only: three backticks,
`htm` plus an optional `l` (case-insensitive, greedy), then a whitespace
run (`\s*` already swallows the optional newline). The second regex
matches only when everything after a final ``` is whitespace, and also
consumes one newline directly before that fence. -/

/-- A content block of the model response. -/
structure Block where
  type : String
  text : List Char

/-- The last text block of the response content, scanned in reverse. -/
def lastTextBlock (content : List Block) : Option (List Char) :=
  (content.reverse.find? (fun b => b.type == "text")).map (fun b => b.text)

/-- Python `str.lower()`, per character (ASCII data). -/
def toLowerL (s : List Char) : List Char := s.map Char.toLower

/-- `re.sub(r"^```html?\s*\n?", "", s, flags=re.IGNORECASE)`. -/
def stripFenceStart (s : List Char) : List Char :=
  if toLowerL (s.take 7) = ("```html").toList then lstripL (s.drop 7)
  else if toLowerL (s.take 6) = ("```htm").toList then lstripL (s.drop 6)
  else s

/-- Drop one leading newline (the `\n?` of the closing-fence regex,
seen from the reversed tail). -/
def dropOptNewline (u : List Char) : List Char :=
  if u.head? = some '\n' then u.tail else u

/-- `re.sub(r"\n?```\s*$", "", s)`: drop trailing whitespace, a closing
```, and one newline directly before it — when such a suffix exists. -/
def stripFenceEnd (s : List Char) : List Char :=
  if ((s.reverse.dropWhile isPySpace).take 3) = ("```").toList then
    (dropOptNewline ((s.reverse.dropWhile isPySpace).drop 3)).reverse
  else s

/-- The fence-stripping and trimming applied to the extracted text. -/
def unfence (raw : List Char) : List Char :=
  stripL (stripFenceEnd (stripFenceStart raw))

/-- `html.lower().startswith("<!doctype") or html.lower().startswith("<html")`. -/
def startsDoc (h : List Char) : Bool :=
  ("<!doctype").toList.isPrefixOf (toLowerL h)
  || ("<html").toList.isPrefixOf (toLowerL h)

/-- The two `RuntimeError`s of the extraction. -/
inductive BuildErr
  | noTextBlock
  | notHtml
deriving DecidableEq

/-- The extraction/validation tail of `build_website` (`if not html` is
falsy both for a missing text block and for an empty text). -/
def extractHtml (content : List Block) : Except BuildErr (List Char) :=
  match lastTextBlock content with
  | none => .error .noTextBlock
  | some raw =>
    if raw = [] then .error .noTextBlock
    else
      let html := unfence raw
      if startsDoc html then .ok html else .error .notHtml

/-- A document fenced as ```html … ```. -/
def fenceWrap (c : List Char) : List Char :=
  ("```html\n").toList ++ c ++ ("\n```").toList

lemma dropWhile_idem {α : Type} (p : α → Bool) (l : List α) :
    (l.dropWhile p).dropWhile p = l.dropWhile p := by
  induction l with
  | nil => rfl
  | cons x xs ih =>
    by_cases h : p x <;> simp [List.dropWhile_cons, h, ih]

lemma dropWhile_append_nil {α : Type} (p : α → Bool) (a b : List α)
    (h : a.dropWhile p = []) : (a ++ b).dropWhile p = b.dropWhile p := by
  induction a with
  | nil => rfl
  | cons x xs ih =>
    simp only [List.dropWhile_cons, List.cons_append] at h ⊢
    by_cases hx : p x
    · simp only [hx, if_true] at h ⊢
      exact ih h
    · simp [hx] at h

lemma dropWhile_append_ne_nil {α : Type} (p : α → Bool) (a b : List α)
    (h : a.dropWhile p ≠ []) : (a ++ b).dropWhile p = a.dropWhile p ++ b := by
  induction a with
  | nil => simp at h
  | cons x xs ih =>
    simp only [List.dropWhile_cons, List.cons_append] at h ⊢
    by_cases hx : p x
    · simp only [hx, if_true] at h ⊢
      exact ih h
    · simp [hx]

lemma stripFenceStart_fenceWrap (c : List Char) :
    stripFenceStart (fenceWrap c) = lstripL (c ++ ("\n```").toList) := rfl

lemma stripFenceEnd_of_rev (s w : List Char)
    (h : s.reverse.dropWhile isPySpace = '`' :: '`' :: '`' :: '\n' :: w) :
    stripFenceEnd s = w.reverse := by
  simp only [stripFenceEnd, h]
  rfl

lemma unfence_fenceWrap (c : List Char) : unfence (fenceWrap c) = stripL c := by
  unfold unfence
  rw [stripFenceStart_fenceWrap]
  by_cases h : lstripL c = []
  · have hsplit : lstripL (c ++ ("\n```").toList) = lstripL (("\n```").toList) :=
      dropWhile_append_nil _ _ _ h
    rw [hsplit]
    have h2 : stripL (stripFenceEnd (lstripL (("\n```").toList))) = [] := by decide
    rw [h2, stripL, h]
    rfl
  · have hsplit : lstripL (c ++ ("\n```").toList) = lstripL c ++ ("\n```").toList :=
      dropWhile_append_ne_nil _ _ _ h
    rw [hsplit]
    have hrev : (lstripL c ++ ("\n```").toList).reverse.dropWhile isPySpace
        = '`' :: '`' :: '`' :: '\n' :: (lstripL c).reverse := by
      rw [List.reverse_append]
      rfl
    rw [stripFenceEnd_of_rev _ _ hrev, List.reverse_reverse]
    show stripL (lstripL c) = stripL c
    unfold stripL
    rw [show lstripL (lstripL c) = lstripL c from dropWhile_idem _ _]

/-- C5: if the last text block of the response is a document fenced as
```html … ```, the unfence step returns exactly the fenced content with
the fence markers and surrounding whitespace removed, and the generator
returns it when it starts with a recognized document token; if the
unwrapped, trimmed text does not begin with "<!doctype" or "<html"
(case-insensitively), the generator raises and never returns that text. -/
theorem c5_build_extract (content : List Block) :
    (∀ c, lastTextBlock content = some (fenceWrap c) →
      unfence (fenceWrap c) = stripL c
      ∧ (startsDoc (stripL c) = true → extractHtml content = .ok (stripL c)))
    ∧ (∀ raw, lastTextBlock content = some raw →
        startsDoc (unfence raw) = false →
        ∀ htmlOut, extractHtml content ≠ .ok htmlOut) := by
  constructor
  · intro c hlast
    refine ⟨unfence_fenceWrap c, ?_⟩
    intro hdoc
    have hne : fenceWrap c ≠ [] := by simp [fenceWrap]
    simp only [extractHtml, hlast, hne, if_false, unfence_fenceWrap c, hdoc, if_true]
  · intro raw hlast hdoc htmlOut
    simp only [extractHtml, hlast]
    by_cases hraw : raw = []
    · simp [hraw]
    · simp [hraw, hdoc]

/-- Witness for C5 on concrete responses: a fenced `<html>` document is
unwrapped to exactly the fenced content, and a non-document response is
rejected. -/
theorem c5_build_extract_witness :
    extractHtml [⟨"text", fenceWrap (("<html>ok</html>").toList)⟩]
      = .ok (("<html>ok</html>").toList)
    ∧ ∀ htmlOut, extractHtml [⟨"text", ("hello there").toList⟩] ≠ .ok htmlOut := by
  constructor
  · have h := ((c5_build_extract [⟨"text", fenceWrap (("<html>ok</html>").toList)⟩]).1
      (("<html>ok</html>").toList) (by decide)).2 (by decide)
    rw [h]
    have : stripL (("<html>ok</html>").toList) = ("<html>ok</html>").toList := by decide
    rw [this]
  · exact (c5_build_extract [⟨"text", ("hello there").toList⟩]).2
      (("hello there").toList) (by decide) (by decide)

/-! ## `deploy_netlify.slugify` (Tools/deploy_netlify.py lines 29-39)

```python
def slugify(name: str) -> str:
    name = re.sub(r"\b(b\.?v\.?|n\.?v\.?|v\.?o\.?f\.?|bvba|ltd|gmbh)\b", "",
                  name, flags=re.IGNORECASE)
    name = unicodedata.normalize("NFD", name)
    name = name.encode("ascii", "ignore").decode("ascii")
    name = re.sub(r"[^a-z0-9]+", "-", name.lower())
    name = name.strip("-")
    return name[:40]
```

The legal-suffix regex is modelled by a left-to-right scanner. At each
position where the leading `\b` holds (the previous character is not a
word character — every alternative starts with a letter), the alternatives
are tried in the regex's backtracking order: alternation order first, and
within one alternative the greedy `\.?` options from most dots to fewest.
A candidate matches when it is a case-insensitive literal prefix of the
remaining text and the trailing `\b` holds after it; the match is removed
and scanning resumes after it, exactly as `re.sub` does. -/

/-- The regex character class `[a-z0-9]` (complement of `[^a-z0-9]`). -/
def isSlugChar (c : Char) : Bool :=
  (97 ≤ c.toNat && c.toNat ≤ 122) || (48 ≤ c.toNat && c.toNat ≤ 57)

/-- The regex class `\w` (ASCII part): letters, digits, underscore. -/
def isWordChar (c : Char) : Bool :=
  (97 ≤ c.toNat && c.toNat ≤ 122) || (65 ≤ c.toNat && c.toNat ≤ 90)
  || (48 ≤ c.toNat && c.toNat ≤ 57) || c.toNat = 95

/-- All literal strings the alternation
`b\.?v\.?|n\.?v\.?|v\.?o\.?f\.?|bvba|ltd|gmbh` can match, in the order the
regex engine tries them (alternatives in order; within one alternative the
greedy optional dots from all-present to all-absent). -/
def suffixCandidates : List (List Char) :=
  [ ['b','.','v','.'], ['b','.','v'], ['b','v','.'], ['b','v'],
    ['n','.','v','.'], ['n','.','v'], ['n','v','.'], ['n','v'],
    ['v','.','o','.','f','.'], ['v','.','o','.','f'], ['v','.','o','f','.'], ['v','.','o','f'],
    ['v','o','.','f','.'], ['v','o','.','f'], ['v','o','f','.'], ['v','o','f'],
    ['b','v','b','a'], ['l','t','d'], ['g','m','b','h'] ]

/-- The trailing `\b` after a candidate match at the head of `s`: the word
character classes of the candidate's last character and of the following
character (end of string counts as non-word) must differ. -/
def boundaryAfterCand (cand s : List Char) : Bool :=
  match cand.getLast?, (s.drop cand.length).head? with
  | some lc, none => isWordChar lc
  | some lc, some nc => isWordChar lc != isWordChar nc
  | none, _ => false

/-- Candidate `cand` matches at the head of `s` (case-insensitively, with
its trailing boundary). -/
def candMatches (s : List Char) (cand : List Char) : Bool :=
  toLowerL (s.take cand.length) == cand && boundaryAfterCand cand s

/-- The length of the suffix-token match at the head of `s`, if any. -/
def findCandidate (s : List Char) : Option Nat :=
  (suffixCandidates.find? (candMatches s)).map List.length

/-- The `re.sub` scanner: `skip` counts characters of a match still to be
consumed, the Bool is whether the previous character of the original
string is a word character (so the leading `\b` holds exactly when it is
false). -/
def removeSuffixGo : Nat → Bool → List Char → List Char
  | _, _, [] => []
  | skip + 1, _, c :: rest => removeSuffixGo skip (isWordChar c) rest
  | 0, prevWord, c :: rest =>
    if prevWord then c :: removeSuffixGo 0 (isWordChar c) rest
    else
      match findCandidate (c :: rest) with
      | some n => removeSuffixGo (n - 1) (isWordChar c) rest
      | none => c :: removeSuffixGo 0 (isWordChar c) rest

/-- `re.sub(r"\b(b\.?v\.?|…)\b", "", name, flags=re.IGNORECASE)`. -/
def removeSuffixTokens (s : List Char) : List Char := removeSuffixGo 0 false s

/-- `unicodedata.normalize("NFD", ·).encode("ascii","ignore").decode("ascii")`:
the identity on ASCII characters (NFD leaves them unchanged and the ascii
codec keeps them). Non-ASCII characters are NFD-decomposed and their
non-ASCII parts dropped; that decomposition is not modelled — a non-ASCII
character is dropped here, as `ignore` does when no ASCII residue exists.
Every claim about `slugify` concerns ASCII input only, where this step is
exactly the identity. -/
def asciiFold (s : List Char) : List Char := s.filter (fun c => c.toNat < 128)

/-- `re.sub(r"[^a-z0-9]+", "-", s)`: each maximal run of characters
outside `[a-z0-9]` becomes a single hyphen (`inRun` = the run's hyphen was
already emitted). -/
def collapseGo : Bool → List Char → List Char
  | _, [] => []
  | inRun, c :: rest =>
    if isSlugChar c then c :: collapseGo false rest
    else if inRun then collapseGo true rest
    else '-' :: collapseGo true rest

/-- `re.sub(r"[^a-z0-9]+", "-", s)`. -/
def collapseNonAlnum (s : List Char) : List Char := collapseGo false s

/-- `str.strip("-")`. -/
def stripHyphens (s : List Char) : List Char :=
  ((s.dropWhile (fun c => c = '-')).reverse.dropWhile (fun c => c = '-')).reverse

/-- `deploy_netlify.slugify`. -/
def slugify (name : List Char) : List Char :=
  (stripHyphens (collapseNonAlnum (toLowerL (asciiFold (removeSuffixTokens name))))).take 40

/-- Already-clean input in the sense of the claim: only lowercase ASCII
letters, digits, and hyphens. -/
def isCleanSlugInput (s : List Char) : Bool :=
  s.all (fun c => isSlugChar c || c = '-')

/-- Counterexample to C8 as stated: the 41-character clean input
`"a"*37 ++ "-bva"` contains no legal-suffix token, but the final `[:40]`
truncation cuts its slug to `"a"*37 ++ "-bv"`, whose trailing segment `bv`
is a legal-suffix token (word-bounded), so a second slugify strips it:
`slugify(slugify(x)) = "a"*37 ≠ "a"*37 ++ "-bv" = slugify(x)`. -/
theorem c8_slugify_counterexample :
    isCleanSlugInput (List.replicate 37 'a' ++ ['-', 'b', 'v', 'a']) = true
    ∧ slugify (slugify (List.replicate 37 'a' ++ ['-', 'b', 'v', 'a']))
        ≠ slugify (List.replicate 37 'a' ++ ['-', 'b', 'v', 'a']) := by
  constructor
  · decide
  · decide

/-! ### Toolbox for the slugify idempotence proof -/

/-- The hyphen-delimited "word" segments the suffix regex can delete whole:
exactly the dot-free alternatives of the alternation. -/
def isTok (g : List Char) : Bool :=
  g == ['b','v'] || g == ['n','v'] || g == ['v','o','f'] || g == ['b','v','b','a']
  || g == ['l','t','d'] || g == ['g','m','b','h']

/-- The maximal `[a-z0-9]` runs of a string, in order (`cur` holds the
reversed run being read). -/
def runsGo (cur : List Char) : List Char → List (List Char)
  | [] => if cur = [] then [] else [cur.reverse]
  | c :: rest =>
    if isSlugChar c then runsGo (c :: cur) rest
    else if cur = [] then runsGo [] rest else cur.reverse :: runsGo [] rest

/-- The maximal `[a-z0-9]` runs of a string. -/
def runs (y : List Char) : List (List Char) := runsGo [] y

lemma toLower_id_of_clean_char (c : Char)
    (h : isSlugChar c = true ∨ c = '-') : c.toLower = c := by
  have hn : ¬(c.toNat ≥ 65 ∧ c.toNat ≤ 90) := by
    rcases h with h | h
    · simp only [isSlugChar, Bool.or_eq_true, Bool.and_eq_true,
        decide_eq_true_eq] at h
      omega
    · subst h; decide
  simp [Char.toLower, hn]

lemma isWordChar_of_isSlugChar (c : Char) (h : isSlugChar c = true) :
    isWordChar c = true := by
  simp only [isSlugChar, Bool.or_eq_true, Bool.and_eq_true, decide_eq_true_eq] at h
  simp only [isWordChar, Bool.or_eq_true, Bool.and_eq_true, decide_eq_true_eq]
  omega

lemma hyphen_not_slug : isSlugChar '-' = false := by decide

lemma hyphen_not_word : isWordChar '-' = false := by decide

lemma removeSuffixGo_skip (skip : Nat) (b : Bool) (c : Char) (rest : List Char) :
    removeSuffixGo (skip + 1) b (c :: rest) = removeSuffixGo skip (isWordChar c) rest := rfl

lemma removeSuffixGo_cons_true (c : Char) (rest : List Char) :
    removeSuffixGo 0 true (c :: rest) = c :: removeSuffixGo 0 (isWordChar c) rest := rfl

lemma removeSuffixGo_cons_false (c : Char) (rest : List Char) :
    removeSuffixGo 0 false (c :: rest)
      = match findCandidate (c :: rest) with
        | some n => removeSuffixGo (n - 1) (isWordChar c) rest
        | none => c :: removeSuffixGo 0 (isWordChar c) rest := rfl

lemma collapseGo_cons_slug (b : Bool) (c : Char) (rest : List Char)
    (hc : isSlugChar c = true) :
    collapseGo b (c :: rest) = c :: collapseGo false rest := by
  simp [collapseGo, hc]

lemma collapseGo_cons_other_true (c : Char) (rest : List Char)
    (hc : isSlugChar c = false) :
    collapseGo true (c :: rest) = collapseGo true rest := by
  simp [collapseGo, hc]

lemma collapseGo_cons_other_false (c : Char) (rest : List Char)
    (hc : isSlugChar c = false) :
    collapseGo false (c :: rest) = '-' :: collapseGo true rest := by
  simp [collapseGo, hc]

/-- Scanner output characters all come from the input. -/
lemma removeSuffixGo_subset (s : List Char) : ∀ skip b,
    ∀ c ∈ removeSuffixGo skip b s, c ∈ s := by
  induction s with
  | nil => intro skip b c hc; simp [removeSuffixGo] at hc
  | cons x rest ih =>
    intro skip b c hc
    match skip with
    | skip + 1 =>
      rw [removeSuffixGo_skip] at hc
      exact List.mem_cons_of_mem x (ih skip _ c hc)
    | 0 =>
      cases b with
      | true =>
        rw [removeSuffixGo_cons_true, List.mem_cons] at hc
        rcases hc with rfl | hc
        · exact List.mem_cons_self _ _
        · exact List.mem_cons_of_mem x (ih 0 _ c hc)
      | false =>
        rw [removeSuffixGo_cons_false] at hc
        cases hfind : findCandidate (x :: rest) with
        | none =>
          rw [hfind] at hc
          simp only [List.mem_cons] at hc
          rcases hc with rfl | hc
          · exact List.mem_cons_self _ _
          · exact List.mem_cons_of_mem x (ih 0 _ c hc)
        | some n =>
          rw [hfind] at hc
          exact List.mem_cons_of_mem x (ih (n - 1) _ c hc)

/-- Scanner output is never longer than the input. -/
lemma removeSuffixGo_length (s : List Char) : ∀ skip b,
    (removeSuffixGo skip b s).length ≤ s.length := by
  induction s with
  | nil => intro skip b; simp [removeSuffixGo]
  | cons x rest ih =>
    intro skip b
    match skip with
    | skip + 1 =>
      rw [removeSuffixGo_skip]
      exact Nat.le_succ_of_le (ih skip _)
    | 0 =>
      cases b with
      | true =>
        rw [removeSuffixGo_cons_true, List.length_cons]
        exact Nat.succ_le_succ (ih 0 _)
      | false =>
        rw [removeSuffixGo_cons_false]
        cases hfind : findCandidate (x :: rest) with
        | none =>
          simp only [List.length_cons]
          exact Nat.succ_le_succ (ih 0 _)
        | some n =>
          exact Nat.le_succ_of_le (ih (n - 1) _)

/-- With the previous character a word character, the scanner copies a run
of `[a-z0-9]` characters verbatim. -/
lemma removeSuffixGo_true_slug (g : List Char) (rest : List Char)
    (hg : ∀ c ∈ g, isSlugChar c = true) :
    removeSuffixGo 0 true (g ++ rest) = g ++ removeSuffixGo 0 true rest := by
  induction g with
  | nil => rfl
  | cons c g' ih =>
    have hc : isSlugChar c = true := hg c (List.mem_cons_self _ _)
    rw [List.cons_append, removeSuffixGo_cons_true,
      isWordChar_of_isSlugChar c hc,
      ih (fun d hd => hg d (List.mem_cons_of_mem c hd)), List.cons_append]

/-- Characters of the collapse output are `[a-z0-9]` or hyphens. -/
lemma collapseGo_chars (s : List Char) : ∀ b,
    ∀ c ∈ collapseGo b s, isSlugChar c = true ∨ c = '-' := by
  induction s with
  | nil => intro b c hc; simp [collapseGo] at hc
  | cons x rest ih =>
    intro b c hc
    cases hx : isSlugChar x with
    | true =>
      rw [collapseGo_cons_slug b x rest hx, List.mem_cons] at hc
      rcases hc with rfl | hc
      · exact Or.inl hx
      · exact ih false c hc
    | false =>
      cases b with
      | true =>
        rw [collapseGo_cons_other_true x rest hx] at hc
        exact ih true c hc
      | false =>
        rw [collapseGo_cons_other_false x rest hx, List.mem_cons] at hc
        rcases hc with rfl | hc
        · exact Or.inr rfl
        · exact ih true c hc

/-- The collapse output in run state never starts with a hyphen. -/
lemma collapseGo_true_head (s : List Char) :
    (collapseGo true s).head? ≠ some '-' := by
  induction s with
  | nil => simp [collapseGo]
  | cons x rest ih =>
    cases hx : isSlugChar x with
    | true =>
      rw [collapseGo_cons_slug true x rest hx, List.head?_cons]
      intro h
      injection h with h
      rw [h] at hx
      simp [hyphen_not_slug] at hx
    | false =>
      rw [collapseGo_cons_other_true x rest hx]
      exact ih

/-- The collapse output never contains two adjacent hyphens. -/
lemma collapseGo_chain (s : List Char) : ∀ b,
    List.Chain' (fun a b => ¬(a = '-' ∧ b = '-')) (collapseGo b s) := by
  induction s with
  | nil => intro b; simp [collapseGo]
  | cons x rest ih =>
    intro b
    cases hx : isSlugChar x with
    | true =>
      rw [collapseGo_cons_slug b x rest hx, List.chain'_cons']
      refine ⟨?_, ih false⟩
      intro y _ hcontra
      rw [hcontra.1] at hx
      simp [hyphen_not_slug] at hx
    | false =>
      cases b with
      | true =>
        rw [collapseGo_cons_other_true x rest hx]
        exact ih true
      | false =>
        rw [collapseGo_cons_other_false x rest hx, List.chain'_cons']
        refine ⟨?_, ih true⟩
        intro y hy hcontra
        rw [hcontra.2] at hy
        exact collapseGo_true_head rest hy

/-- The collapse output is never longer than the input. -/
lemma collapseGo_length (s : List Char) : ∀ b,
    (collapseGo b s).length ≤ s.length := by
  induction s with
  | nil => intro b; simp [collapseGo]
  | cons x rest ih =>
    intro b
    cases hx : isSlugChar x with
    | true =>
      rw [collapseGo_cons_slug b x rest hx, List.length_cons]
      exact Nat.succ_le_succ (ih false)
    | false =>
      cases b with
      | true =>
        rw [collapseGo_cons_other_true x rest hx]
        exact Nat.le_succ_of_le (ih true)
      | false =>
        rw [collapseGo_cons_other_false x rest hx, List.length_cons]
        exact Nat.succ_le_succ (ih true)

/-- The collapse is the identity on strings of `[a-z0-9]` and hyphens with
no two adjacent hyphens. -/
lemma collapseGo_id (y : List Char)
    (hy : ∀ c ∈ y, isSlugChar c = true ∨ c = '-')
    (hch : List.Chain' (fun a b => ¬(a = '-' ∧ b = '-')) y) :
    collapseGo false y = y ∧ (y.head? ≠ some '-' → collapseGo true y = y) := by
  induction y with
  | nil => exact ⟨rfl, fun _ => rfl⟩
  | cons x rest ih =>
    have hxc : isSlugChar x = true ∨ x = '-' := hy x (List.mem_cons_self _ _)
    have hy' : ∀ c ∈ rest, isSlugChar c = true ∨ c = '-' :=
      fun c hc => hy c (List.mem_cons_of_mem x hc)
    rw [List.chain'_cons'] at hch
    have ihr := ih hy' hch.2
    rcases hxc with hxc | hxc
    · constructor
      · rw [collapseGo_cons_slug false x rest hxc, ihr.1]
      · intro _
        rw [collapseGo_cons_slug true x rest hxc, ihr.1]
    · subst hxc
      constructor
      · rw [collapseGo_cons_other_false '-' rest hyphen_not_slug]
        have hresthead : rest.head? ≠ some '-' := by
          intro hcontra
          exact (hch.1 '-' hcontra) ⟨rfl, rfl⟩
        rw [ihr.2 hresthead]
      · intro hcontra
        simp at hcontra


/-- Heads surviving `dropWhile` fail the predicate. -/
lemma head_dropWhile_not {α : Type} (p : α → Bool) (l : List α) :
    ∀ c, (l.dropWhile p).head? = some c → p c = false := by
  induction l with
  | nil => intro c hc; simp [List.dropWhile] at hc
  | cons x rest ih =>
    intro c hc
    rw [List.dropWhile_cons] at hc
    by_cases hx : p x
    · simp only [hx, if_true] at hc
      exact ih c hc
    · simp only [hx, if_false, List.head?_cons] at hc
      injection hc with hc
      rw [← hc]
      simp [hx]

lemma dropWhile_eq_self_of_head {α : Type} (p : α → Bool) (l : List α)
    (h : ∀ c, l.head? = some c → p c = false) : l.dropWhile p = l := by
  cases l with
  | nil => rfl
  | cons x rest =>
    rw [List.dropWhile_cons, h x (by simp)]
    simp

/-- Nonempty `dropWhile` results keep the original last element. -/
lemma getLast?_dropWhile {α : Type} (p : α → Bool) (l : List α)
    (h : l.dropWhile p ≠ []) : (l.dropWhile p).getLast? = l.getLast? := by
  conv_rhs => rw [← List.takeWhile_append_dropWhile p l]
  rw [List.getLast?_append_of_ne_nil _ h]

/-- `strip("-")` leaves no leading hyphen. -/
lemma stripHyphens_head (y : List Char) :
    ∀ c, (stripHyphens y).head? = some c → c ≠ '-' := by
  intro c hc
  unfold stripHyphens at hc
  set w := y.dropWhile (fun c => c = '-') with hw
  set v := w.reverse.dropWhile (fun c => c = '-') with hv
  rw [List.head?_reverse] at hc
  by_cases hvnil : v = []
  · rw [hvnil] at hc
    simp at hc
  · rw [getLast?_dropWhile _ _ (by rw [← hv]; exact hvnil)] at hc
    rw [List.getLast?_reverse] at hc
    have := head_dropWhile_not (fun c => c = '-') y c hc
    simpa using this

/-- `strip("-")` leaves no trailing hyphen. -/
lemma stripHyphens_last (y : List Char) :
    ∀ c, (stripHyphens y).getLast? = some c → c ≠ '-' := by
  intro c hc
  unfold stripHyphens at hc
  rw [List.getLast?_reverse] at hc
  have := head_dropWhile_not (fun c => c = '-') _ c hc
  simpa using this

/-- `strip("-")` is the identity when neither end is a hyphen. -/
lemma stripHyphens_id (y : List Char)
    (h1 : ∀ c, y.head? = some c → c ≠ '-')
    (h2 : ∀ c, y.getLast? = some c → c ≠ '-') : stripHyphens y = y := by
  unfold stripHyphens
  rw [dropWhile_eq_self_of_head _ y
    (fun c hc => by simpa using h1 c hc)]
  rw [dropWhile_eq_self_of_head _ y.reverse
    (fun c hc => by
      rw [List.head?_reverse] at hc
      simpa using h2 c hc)]
  exact List.reverse_reverse y

/-- `strip("-")` keeps only characters of the input. -/
lemma stripHyphens_subset (y : List Char) :
    ∀ c ∈ stripHyphens y, c ∈ y := by
  intro c hc
  unfold stripHyphens at hc
  rw [List.mem_reverse] at hc
  have h1 := (List.dropWhile_sublist (l := (y.dropWhile fun c => c = '-').reverse)
    (fun c => c = '-')).subset hc
  rw [List.mem_reverse] at h1
  exact (List.dropWhile_sublist _).subset h1

/-- `strip("-")` is never longer than its input. -/
lemma stripHyphens_length (y : List Char) :
    (stripHyphens y).length ≤ y.length := by
  unfold stripHyphens
  rw [List.length_reverse]
  calc ((y.dropWhile fun c => c = '-').reverse.dropWhile fun c => c = '-').length
      ≤ (y.dropWhile fun c => c = '-').reverse.length :=
        (List.dropWhile_sublist _).length_le
    _ = (y.dropWhile fun c => c = '-').length := List.length_reverse _
    _ ≤ y.length := (List.dropWhile_sublist _).length_le

/-- `strip("-")` preserves the no-adjacent-hyphens invariant. -/
lemma stripHyphens_chain (y : List Char)
    (hch : List.Chain' (fun a b => ¬(a = '-' ∧ b = '-')) y) :
    List.Chain' (fun a b => ¬(a = '-' ∧ b = '-')) (stripHyphens y) := by
  unfold stripHyphens
  have hsym : ∀ (l : List Char),
      List.Chain' (fun a b => ¬(a = '-' ∧ b = '-')) l →
      List.Chain' (fun a b => ¬(a = '-' ∧ b = '-')) l.reverse := by
    intro l hl
    rw [List.chain'_reverse]
    exact hl.imp (fun a b hab => by
      intro hcontra
      exact hab ⟨hcontra.2, hcontra.1⟩)
  apply hsym
  refine List.Chain'.suffix ?_ (List.dropWhile_suffix _)
  apply hsym
  exact List.Chain'.suffix hch (List.dropWhile_suffix _)

lemma runsGo_nil (cur : List Char) :
    runsGo cur [] = if cur = [] then [] else [cur.reverse] := rfl

lemma runsGo_cons_slug (cur : List Char) (c : Char) (rest : List Char)
    (hc : isSlugChar c = true) :
    runsGo cur (c :: rest) = runsGo (c :: cur) rest := by
  simp [runsGo, hc]

lemma runsGo_cons_other (cur : List Char) (c : Char) (rest : List Char)
    (hc : isSlugChar c = false) :
    runsGo cur (c :: rest)
      = if cur = [] then runsGo [] rest else cur.reverse :: runsGo [] rest := by
  simp [runsGo, hc]

/-- Reading a `[a-z0-9]` run accumulates it into `cur`. -/
lemma runsGo_slug_append (g : List Char) (hg : ∀ c ∈ g, isSlugChar c = true) :
    ∀ cur rest, runsGo cur (g ++ rest) = runsGo (g.reverse ++ cur) rest := by
  induction g with
  | nil => intro cur rest; simp
  | cons c g' ih =>
    intro cur rest
    rw [List.cons_append, runsGo_cons_slug _ _ _ (hg c (List.mem_cons_self _ _)),
      ih (fun d hd => hg d (List.mem_cons_of_mem c hd)) (c :: cur) rest]
    congr 1
    simp

/-- Collapsing non-alnum runs to single hyphens does not change the
`[a-z0-9]` runs. -/
lemma runsGo_collapseGo (r : List Char) :
    (∀ cur, runsGo cur (collapseGo false r) = runsGo cur r)
    ∧ runsGo [] (collapseGo true r) = runsGo [] r := by
  induction r with
  | nil => exact ⟨fun _ => rfl, rfl⟩
  | cons c rest ih =>
    constructor
    · intro cur
      cases hc : isSlugChar c with
      | true =>
        rw [collapseGo_cons_slug false c rest hc, runsGo_cons_slug _ _ _ hc,
          runsGo_cons_slug _ _ _ hc]
        exact ih.1 (c :: cur)
      | false =>
        rw [collapseGo_cons_other_false c rest hc,
          runsGo_cons_other _ _ _ hyphen_not_slug,
          runsGo_cons_other _ _ _ hc]
        by_cases hcur : cur = [] <;> simp [hcur, ih.2]
    · cases hc : isSlugChar c with
      | true =>
        rw [collapseGo_cons_slug true c rest hc, runsGo_cons_slug _ _ _ hc,
          runsGo_cons_slug _ _ _ hc]
        exact ih.1 [c]
      | false =>
        rw [collapseGo_cons_other_true c rest hc, ih.2,
          runsGo_cons_other _ _ _ hc]
        simp

lemma runsGo_replicate_hyphen (k : Nat) : ∀ cur,
    runsGo cur (List.replicate k '-') = runsGo cur [] := by
  induction k with
  | zero => intro cur; rfl
  | succ k ih =>
    intro cur
    rw [List.replicate_succ, runsGo_cons_other _ _ _ hyphen_not_slug]
    by_cases hcur : cur = [] <;> simp [hcur, ih [], runsGo_nil]

/-- Trailing hyphens do not change the `[a-z0-9]` runs. -/
lemma runsGo_append_replicate (z : List Char) : ∀ cur k,
    runsGo cur (z ++ List.replicate k '-') = runsGo cur z := by
  induction z with
  | nil =>
    intro cur k
    rw [List.nil_append, runsGo_replicate_hyphen]
  | cons c z' ih =>
    intro cur k
    cases hc : isSlugChar c with
    | true =>
      rw [List.cons_append, runsGo_cons_slug _ _ _ hc, runsGo_cons_slug _ _ _ hc, ih]
    | false =>
      rw [List.cons_append, runsGo_cons_other _ _ _ hc, runsGo_cons_other _ _ _ hc]
      by_cases hcur : cur = [] <;> simp [hcur, ih]

/-- Leading hyphens do not change the `[a-z0-9]` runs. -/
lemma runsGo_dropWhile_hyphen (y : List Char) :
    runsGo [] (y.dropWhile (fun c => c = '-')) = runsGo [] y := by
  induction y with
  | nil => rfl
  | cons c rest ih =>
    by_cases hc : c = '-'
    · subst hc
      rw [List.dropWhile_cons, if_pos (by decide), ih,
        runsGo_cons_other _ _ _ hyphen_not_slug]
      simp
    · rw [List.dropWhile_cons, if_neg (by simp [hc])]

/-- Splitting off the trailing hyphen run. -/
lemma rstrip_decomp (w : List Char) :
    w = (w.reverse.dropWhile (fun c => c = '-')).reverse
        ++ List.replicate (w.reverse.takeWhile (fun c => c = '-')).length '-' := by
  conv_lhs => rw [← List.reverse_reverse w,
    ← List.takeWhile_append_dropWhile (fun c => decide (c = '-')) w.reverse]
  rw [List.reverse_append]
  congr 1
  rw [List.eq_replicate_iff]
  constructor
  · simp
  · intro b hb
    rw [List.mem_reverse] at hb
    have := List.mem_takeWhile_imp hb
    simpa using this

/-- `strip("-")` does not change the `[a-z0-9]` runs. -/
lemma runs_stripHyphens (y : List Char) : runs (stripHyphens y) = runs y := by
  unfold runs stripHyphens
  have h1 : runsGo [] (y.dropWhile (fun c => c = '-')) = runsGo [] y :=
    runsGo_dropWhile_hyphen y
  have h2 := rstrip_decomp (y.dropWhile (fun c => c = '-'))
  calc runsGo []
        (((y.dropWhile (fun c => c = '-')).reverse.dropWhile (fun c => c = '-')).reverse)
      = runsGo []
          ((((y.dropWhile (fun c => c = '-')).reverse.dropWhile (fun c => c = '-')).reverse)
            ++ List.replicate
              ((y.dropWhile (fun c => c = '-')).reverse.takeWhile (fun c => c = '-')).length
              '-') := (runsGo_append_replicate _ [] _).symm
    _ = runsGo [] (y.dropWhile (fun c => c = '-')) := by rw [← h2]
    _ = runsGo [] y := h1

/-- Every character of a matched prefix is the lowercase image of an input
character. -/
lemma mem_toLower_of_prefix (y cand : List Char) (k : Nat)
    (heq : toLowerL (y.take k) = cand) :
    ∀ c' ∈ cand, ∃ c ∈ y, c.toLower = c' := by
  intro c' hc'
  rw [← heq] at hc'
  unfold toLowerL at hc'
  rw [List.mem_map] at hc'
  obtain ⟨c, hc, hlow⟩ := hc'
  exact ⟨c, (List.take_sublist _ _).subset hc, hlow⟩

/-- Clean text never matches an alternative containing a literal dot. -/
lemma prefix_ne_of_dot (y : List Char)
    (hy : ∀ c ∈ y, isSlugChar c = true ∨ c = '-')
    (cand : List Char) (hdot : '.' ∈ cand) (k : Nat) :
    toLowerL (y.take k) ≠ cand := by
  intro heq
  obtain ⟨c, hc, hlow⟩ := mem_toLower_of_prefix y cand k heq '.' hdot
  rw [toLower_id_of_clean_char c (hy c hc)] at hlow
  subst hlow
  rcases hy '.' hc with h | h
  · exact absurd h (by decide)
  · exact absurd h (by decide)

lemma candMatches_false_of_prefix_ne (s cand : List Char)
    (h : toLowerL (s.take cand.length) ≠ cand) :
    candMatches s cand = false := by
  unfold candMatches
  rw [beq_eq_false_iff_ne.mpr h, Bool.false_and]

/-- `toLower` fixes a `[a-z0-9]` run. -/
lemma toLowerL_slug_id (g : List Char) (hg : ∀ c ∈ g, isSlugChar c = true) :
    toLowerL g = g := by
  unfold toLowerL
  have h : ∀ c ∈ g, c.toLower = id c :=
    fun c hc => toLower_id_of_clean_char c (Or.inl (hg c hc))
  rw [List.map_congr_left h, List.map_id]

/-- A maximal `[a-z0-9]` run different from a dot-free alternative never
matches it. -/
lemma candMatches_dotless_false (g t : List Char) (cand : List Char)
    (hg : ∀ c ∈ g, isSlugChar c = true) (_hgne : g ≠ [])
    (ht : t = [] ∨ ∃ t', t = '-' :: t')
    (hcand : ∀ c ∈ cand, isSlugChar c = true) (_hcne : cand ≠ [])
    (hne : g ≠ cand) :
    candMatches (g ++ t) cand = false := by
  by_cases hpre : toLowerL ((g ++ t).take cand.length) = cand
  case neg => exact candMatches_false_of_prefix_ne _ _ hpre
  case pos =>
    rcases Nat.lt_trichotomy cand.length g.length with hk | hk | hk
    · unfold candMatches
      have hbound : boundaryAfterCand cand (g ++ t) = false := by
        unfold boundaryAfterCand
        cases hl : cand.getLast? with
        | none => rfl
        | some lc =>
          have hlcw : isWordChar lc = true := by
            apply isWordChar_of_isSlugChar
            exact hcand lc (List.mem_of_mem_getLast? hl)
          rw [List.drop_append_of_le_length (Nat.le_of_lt hk)]
          have hdne : g.drop cand.length ≠ [] := by
            rw [ne_eq, List.drop_eq_nil_iff]
            omega
          cases hdrop : g.drop cand.length with
          | nil => exact absurd hdrop hdne
          | cons d ds =>
            have hdw : isWordChar d = true := by
              apply isWordChar_of_isSlugChar
              apply hg
              have : d ∈ g.drop cand.length := by rw [hdrop]; simp
              exact (List.drop_sublist _ _).subset this
            simp [hlcw, hdw]
      rw [hbound, Bool.and_false]
    · exfalso
      apply hne
      rw [hk, List.take_left] at hpre
      rw [toLowerL_slug_id g hg] at hpre
      exact hpre
    · exfalso
      rcases ht with rfl | ⟨t', rfl⟩
      · rw [List.append_nil] at hpre
        have hlen : (toLowerL (g.take cand.length)).length = g.length := by
          unfold toLowerL
          rw [List.length_map, List.length_take]
          omega
        rw [hpre] at hlen
        omega
      · have hmem : '-' ∈ (g ++ '-' :: t').take cand.length := by
          rw [List.take_append_eq_append_take,
            List.take_of_length_le (Nat.le_of_lt hk)]
          refine List.mem_append.mpr (Or.inr ?_)
          rcases hcl : cand.length - g.length with _ | m
          · omega
          · rw [List.take_succ_cons]
            exact List.mem_cons_self _ _
        have hdash : ('-').toLower ∈ cand := by
          rw [← hpre]
          unfold toLowerL
          exact List.mem_map_of_mem _ hmem
        rw [show ('-').toLower = '-' from by decide] at hdash
        exact absurd (hcand '-' hdash) (by decide)

/-- A maximal `[a-z0-9]` run that is not a legal-suffix token admits no
match of the suffix regex at its head. -/
lemma findCandidate_none_of_run (g t : List Char)
    (hg : ∀ c ∈ g, isSlugChar c = true) (hgne : g ≠ [])
    (ht : t = [] ∨ ∃ t', t = '-' :: t')
    (hclean_t : ∀ c ∈ t, isSlugChar c = true ∨ c = '-')
    (hnt : isTok g = false) :
    findCandidate (g ++ t) = none := by
  have hclean : ∀ c ∈ g ++ t, isSlugChar c = true ∨ c = '-' := by
    intro c hc
    rcases List.mem_append.mp hc with hc | hc
    · exact Or.inl (hg c hc)
    · exact hclean_t c hc
  have hbv : g ≠ ['b','v'] := by
    intro h; rw [h] at hnt; exact absurd hnt (by decide)
  have hnv : g ≠ ['n','v'] := by
    intro h; rw [h] at hnt; exact absurd hnt (by decide)
  have hvof : g ≠ ['v','o','f'] := by
    intro h; rw [h] at hnt; exact absurd hnt (by decide)
  have hbvba : g ≠ ['b','v','b','a'] := by
    intro h; rw [h] at hnt; exact absurd hnt (by decide)
  have hltd : g ≠ ['l','t','d'] := by
    intro h; rw [h] at hnt; exact absurd hnt (by decide)
  have hgmbh : g ≠ ['g','m','b','h'] := by
    intro h; rw [h] at hnt; exact absurd hnt (by decide)
  unfold findCandidate
  have hnone : suffixCandidates.find? (candMatches (g ++ t)) = none := by
    rw [List.find?_eq_none]
    intro cand hcand
    fin_cases hcand
    · rw [candMatches_false_of_prefix_ne _ _
        (prefix_ne_of_dot _ hclean _ (by decide) _)]; simp
    · rw [candMatches_false_of_prefix_ne _ _
        (prefix_ne_of_dot _ hclean _ (by decide) _)]; simp
    · rw [candMatches_false_of_prefix_ne _ _
        (prefix_ne_of_dot _ hclean _ (by decide) _)]; simp
    · rw [candMatches_dotless_false g t _ hg hgne ht
        (by intro c hc; fin_cases hc <;> decide) (by decide) hbv]; simp
    · rw [candMatches_false_of_prefix_ne _ _
        (prefix_ne_of_dot _ hclean _ (by decide) _)]; simp
    · rw [candMatches_false_of_prefix_ne _ _
        (prefix_ne_of_dot _ hclean _ (by decide) _)]; simp
    · rw [candMatches_false_of_prefix_ne _ _
        (prefix_ne_of_dot _ hclean _ (by decide) _)]; simp
    · rw [candMatches_dotless_false g t _ hg hgne ht
        (by intro c hc; fin_cases hc <;> decide) (by decide) hnv]; simp
    · rw [candMatches_false_of_prefix_ne _ _
        (prefix_ne_of_dot _ hclean _ (by decide) _)]; simp
    · rw [candMatches_false_of_prefix_ne _ _
        (prefix_ne_of_dot _ hclean _ (by decide) _)]; simp
    · rw [candMatches_false_of_prefix_ne _ _
        (prefix_ne_of_dot _ hclean _ (by decide) _)]; simp
    · rw [candMatches_false_of_prefix_ne _ _
        (prefix_ne_of_dot _ hclean _ (by decide) _)]; simp
    · rw [candMatches_false_of_prefix_ne _ _
        (prefix_ne_of_dot _ hclean _ (by decide) _)]; simp
    · rw [candMatches_false_of_prefix_ne _ _
        (prefix_ne_of_dot _ hclean _ (by decide) _)]; simp
    · rw [candMatches_false_of_prefix_ne _ _
        (prefix_ne_of_dot _ hclean _ (by decide) _)]; simp
    · rw [candMatches_dotless_false g t _ hg hgne ht
        (by intro c hc; fin_cases hc <;> decide) (by decide) hvof]; simp
    · rw [candMatches_dotless_false g t _ hg hgne ht
        (by intro c hc; fin_cases hc <;> decide) (by decide) hbvba]; simp
    · rw [candMatches_dotless_false g t _ hg hgne ht
        (by intro c hc; fin_cases hc <;> decide) (by decide) hltd]; simp
    · rw [candMatches_dotless_false g t _ hg hgne ht
        (by intro c hc; fin_cases hc <;> decide) (by decide) hgmbh]; simp
  rw [hnone]
  rfl

/-- No match ever starts at a hyphen. -/
lemma findCandidate_hyphen (rest : List Char) :
    findCandidate ('-' :: rest) = none := rfl

lemma runs_run_nil (g : List Char) (hg : ∀ c ∈ g, isSlugChar c = true)
    (hgne : g ≠ []) : runs (g ++ []) = [g] := by
  unfold runs
  rw [runsGo_slug_append g hg [] [], runsGo_nil, if_neg (by simp [hgne])]
  simp

lemma runs_run_cons (g t' : List Char) (hg : ∀ c ∈ g, isSlugChar c = true)
    (hgne : g ≠ []) :
    runs (g ++ '-' :: t') = g :: runs t' := by
  unfold runs
  rw [runsGo_slug_append g hg [] ('-' :: t'),
    runsGo_cons_other _ _ _ hyphen_not_slug, if_neg (by simp [hgne])]
  simp

lemma isTok_cases (g : List Char) (hg : isTok g = true) :
    g = ['b','v'] ∨ g = ['n','v'] ∨ g = ['v','o','f'] ∨ g = ['b','v','b','a']
    ∨ g = ['l','t','d'] ∨ g = ['g','m','b','h'] := by
  simp only [isTok, Bool.or_eq_true, beq_iff_eq] at hg
  tauto

/-- The scanner deletes a whole legal-suffix token ending the string. -/
lemma scanner_tok_nil (g : List Char) (hg : isTok g = true) :
    removeSuffixGo 0 false (g ++ []) = [] := by
  rcases isTok_cases g hg with rfl | rfl | rfl | rfl | rfl | rfl <;> rfl

/-- The scanner deletes a whole hyphen-bounded legal-suffix token and
resumes at the hyphen. -/
lemma scanner_tok_cons (g t' : List Char) (hg : isTok g = true) :
    removeSuffixGo 0 false (g ++ '-' :: t') = '-' :: removeSuffixGo 0 false t' := by
  rcases isTok_cases g hg with rfl | rfl | rfl | rfl | rfl | rfl <;> rfl

/-- The suffix-regex substitution removes exactly the maximal `[a-z0-9]`
runs equal to a dot-free legal-suffix token, for clean input. -/
lemma runs_removeSuffix_aux : ∀ n (x : List Char), x.length ≤ n →
    (∀ c ∈ x, isSlugChar c = true ∨ c = '-') →
    runs (removeSuffixGo 0 false x) = (runs x).filter (fun g => !isTok g) := by
  intro n
  induction n with
  | zero =>
    intro x hlen _
    have : x = [] := List.eq_nil_of_length_eq_zero (Nat.le_zero.mp hlen)
    subst this
    rfl
  | succ n ih =>
    intro x hlen hclean
    cases x with
    | nil => rfl
    | cons c rest =>
      rcases hclean c (List.mem_cons_self _ _) with hc | hc
      · -- the head starts a [a-z0-9] run g; t is the rest
        have hgdef : (c :: rest).takeWhile isSlugChar = c :: rest.takeWhile isSlugChar :=
          List.takeWhile_cons_of_pos hc
        have hdecomp := List.takeWhile_append_dropWhile isSlugChar (c :: rest)
        have hg_all : ∀ d ∈ (c :: rest).takeWhile isSlugChar, isSlugChar d = true :=
          fun d hd => List.mem_takeWhile_imp hd
        have hgne : (c :: rest).takeWhile isSlugChar ≠ [] := by
          rw [hgdef]; simp
        have hclean_t : ∀ d ∈ (c :: rest).dropWhile isSlugChar,
            isSlugChar d = true ∨ d = '-' := by
          intro d hd
          exact hclean d ((List.dropWhile_sublist _).subset hd)
        have ht_shape : (c :: rest).dropWhile isSlugChar = []
            ∨ ∃ t', (c :: rest).dropWhile isSlugChar = '-' :: t' := by
          cases hT : (c :: rest).dropWhile isSlugChar with
          | nil => exact Or.inl rfl
          | cons d t' =>
            right
            have hd : isSlugChar d = false :=
              head_dropWhile_not isSlugChar (c :: rest) d (by rw [hT]; rfl)
            have hdmem : d ∈ c :: rest :=
              (List.dropWhile_sublist _).subset (by rw [hT]; exact List.mem_cons_self _ _)
            rcases hclean d hdmem with h | h
            · rw [h] at hd; cases hd
            · rw [h] at hT ⊢
              exact ⟨t', rfl⟩
        have hlen_t : ((c :: rest).dropWhile isSlugChar).length ≤ n + 1 :=
          le_trans (List.Sublist.length_le (List.dropWhile_sublist _)) hlen
        rw [← hdecomp]
        by_cases htok : isTok ((c :: rest).takeWhile isSlugChar) = true
        · rcases ht_shape with ht0 | ⟨t', ht0⟩
          · rw [ht0, scanner_tok_nil _ htok, runs_run_nil _ hg_all hgne]
            show runs [] = _
            rw [List.filter_cons]
            simp [htok, runs, runsGo_nil]
          · rw [ht0, scanner_tok_cons _ t' htok, runs_run_cons _ t' hg_all hgne]
            have hlen' : t'.length ≤ n := by
              rw [ht0] at hlen_t
              simpa using hlen_t
            have hclean' : ∀ d ∈ t', isSlugChar d = true ∨ d = '-' := by
              intro d hd
              exact hclean_t d (by rw [ht0]; exact List.mem_cons_of_mem _ hd)
            have hrec := ih t' hlen' hclean'
            show runsGo [] ('-' :: removeSuffixGo 0 false t') = _
            rw [runsGo_cons_other _ _ _ hyphen_not_slug, if_pos rfl,
              List.filter_cons]
            simp only [htok, Bool.not_true, Bool.false_eq_true, if_false]
            exact hrec
        · have htokf : isTok ((c :: rest).takeWhile isSlugChar) = false := by
            revert htok
            cases isTok ((c :: rest).takeWhile isSlugChar) <;> simp
          have hfind := findCandidate_none_of_run _ _ hg_all hgne ht_shape hclean_t htokf
          have hstep : removeSuffixGo 0 false
              ((c :: rest).takeWhile isSlugChar ++ (c :: rest).dropWhile isSlugChar)
              = (c :: rest).takeWhile isSlugChar
                ++ removeSuffixGo 0 true ((c :: rest).dropWhile isSlugChar) := by
            rw [hgdef, List.cons_append, removeSuffixGo_cons_false]
            rw [show findCandidate
                (c :: (rest.takeWhile isSlugChar ++ (c :: rest).dropWhile isSlugChar))
                = none from by rw [← List.cons_append, ← hgdef]; exact hfind]
            show c :: removeSuffixGo 0 (isWordChar c)
              (rest.takeWhile isSlugChar ++ (c :: rest).dropWhile isSlugChar) = _
            rw [isWordChar_of_isSlugChar c hc,
              removeSuffixGo_true_slug _ _ (fun d hd => List.mem_takeWhile_imp hd),
              List.cons_append]
          rw [hstep]
          rcases ht_shape with ht0 | ⟨t', ht0⟩
          · rw [ht0]
            show runs ((c :: rest).takeWhile isSlugChar ++ []) = _
            rw [runs_run_nil _ hg_all hgne, List.filter_cons]
            simp [htokf]
          · rw [ht0]
            show runs ((c :: rest).takeWhile isSlugChar
              ++ ('-' :: removeSuffixGo 0 (isWordChar '-') t')) = _
            rw [hyphen_not_word]
            rw [runs_run_cons _ _ hg_all hgne, runs_run_cons _ _ hg_all hgne,
              List.filter_cons]
            have hlen' : t'.length ≤ n := by
              rw [ht0] at hlen_t
              simpa using hlen_t
            have hclean' : ∀ d ∈ t', isSlugChar d = true ∨ d = '-' := by
              intro d hd
              exact hclean_t d (by rw [ht0]; exact List.mem_cons_of_mem _ hd)
            simp only [htokf, Bool.not_false, if_true]
            rw [ih t' hlen' hclean']
      · subst hc
        have hstep : removeSuffixGo 0 false ('-' :: rest)
            = '-' :: removeSuffixGo 0 false rest := by
          rw [removeSuffixGo_cons_false, findCandidate_hyphen]
          show '-' :: removeSuffixGo 0 (isWordChar '-') rest = _
          rw [hyphen_not_word]
        rw [hstep]
        show runsGo [] ('-' :: removeSuffixGo 0 false rest)
          = List.filter _ (runsGo [] ('-' :: rest))
        rw [runsGo_cons_other _ _ _ hyphen_not_slug, if_pos rfl,
          runsGo_cons_other _ _ _ hyphen_not_slug, if_pos rfl]
        exact ih rest (Nat.le_of_succ_le_succ (by simpa using hlen))
          (fun d hd => hclean d (List.mem_cons_of_mem _ hd))

/-- The suffix-regex substitution is the identity on clean strings none of
whose maximal `[a-z0-9]` runs is a legal-suffix token. -/
lemma removeSuffix_id_aux : ∀ n (y : List Char), y.length ≤ n →
    (∀ c ∈ y, isSlugChar c = true ∨ c = '-') →
    (∀ g ∈ runs y, isTok g = false) →
    removeSuffixGo 0 false y = y := by
  intro n
  induction n with
  | zero =>
    intro y hlen _ _
    have : y = [] := List.eq_nil_of_length_eq_zero (Nat.le_zero.mp hlen)
    subst this
    rfl
  | succ n ih =>
    intro y hlen hclean hnt
    cases y with
    | nil => rfl
    | cons c rest =>
      rcases hclean c (List.mem_cons_self _ _) with hc | hc
      · have hgdef : (c :: rest).takeWhile isSlugChar = c :: rest.takeWhile isSlugChar :=
          List.takeWhile_cons_of_pos hc
        have hdecomp := List.takeWhile_append_dropWhile isSlugChar (c :: rest)
        have hg_all : ∀ d ∈ (c :: rest).takeWhile isSlugChar, isSlugChar d = true :=
          fun d hd => List.mem_takeWhile_imp hd
        have hgne : (c :: rest).takeWhile isSlugChar ≠ [] := by
          rw [hgdef]; simp
        have hclean_t : ∀ d ∈ (c :: rest).dropWhile isSlugChar,
            isSlugChar d = true ∨ d = '-' := by
          intro d hd
          exact hclean d ((List.dropWhile_sublist _).subset hd)
        have ht_shape : (c :: rest).dropWhile isSlugChar = []
            ∨ ∃ t', (c :: rest).dropWhile isSlugChar = '-' :: t' := by
          cases hT : (c :: rest).dropWhile isSlugChar with
          | nil => exact Or.inl rfl
          | cons d t' =>
            right
            have hd : isSlugChar d = false :=
              head_dropWhile_not isSlugChar (c :: rest) d (by rw [hT]; rfl)
            have hdmem : d ∈ c :: rest :=
              (List.dropWhile_sublist _).subset (by rw [hT]; exact List.mem_cons_self _ _)
            rcases hclean d hdmem with h | h
            · rw [h] at hd; cases hd
            · rw [h] at hT ⊢
              exact ⟨t', rfl⟩
        have hlen_t : ((c :: rest).dropWhile isSlugChar).length ≤ n + 1 :=
          le_trans (List.Sublist.length_le (List.dropWhile_sublist _)) hlen
        have htokf : isTok ((c :: rest).takeWhile isSlugChar) = false := by
          apply hnt
          rcases ht_shape with ht0 | ⟨t', ht0⟩
          · have hre : runs (c :: rest) = [(c :: rest).takeWhile isSlugChar] := by
              conv_lhs => rw [← hdecomp, ht0]
              exact runs_run_nil _ hg_all hgne
            rw [hre]
            exact List.mem_cons_self _ _
          · have hre : runs (c :: rest)
                = (c :: rest).takeWhile isSlugChar :: runs t' := by
              conv_lhs => rw [← hdecomp, ht0]
              exact runs_run_cons _ t' hg_all hgne
            rw [hre]
            exact List.mem_cons_self _ _
        have hfind := findCandidate_none_of_run _ _ hg_all hgne ht_shape hclean_t htokf
        conv_lhs => rw [← hdecomp]
        have hstep : removeSuffixGo 0 false
            ((c :: rest).takeWhile isSlugChar ++ (c :: rest).dropWhile isSlugChar)
            = (c :: rest).takeWhile isSlugChar
              ++ removeSuffixGo 0 true ((c :: rest).dropWhile isSlugChar) := by
          rw [hgdef, List.cons_append, removeSuffixGo_cons_false]
          rw [show findCandidate
              (c :: (rest.takeWhile isSlugChar ++ (c :: rest).dropWhile isSlugChar))
              = none from by rw [← List.cons_append, ← hgdef]; exact hfind]
          show c :: removeSuffixGo 0 (isWordChar c)
            (rest.takeWhile isSlugChar ++ (c :: rest).dropWhile isSlugChar) = _
          rw [isWordChar_of_isSlugChar c hc,
            removeSuffixGo_true_slug _ _ (fun d hd => List.mem_takeWhile_imp hd),
            List.cons_append]
        rw [hstep]
        rcases ht_shape with ht0 | ⟨t', ht0⟩
        · rw [ht0]
          show (c :: rest).takeWhile isSlugChar ++ [] = c :: rest
          rw [← ht0]
          exact hdecomp
        · rw [ht0]
          show (c :: rest).takeWhile isSlugChar
            ++ ('-' :: removeSuffixGo 0 (isWordChar '-') t') = c :: rest
          rw [hyphen_not_word]
          have hlen' : t'.length ≤ n := by
            rw [ht0] at hlen_t
            simpa using hlen_t
          have hclean' : ∀ d ∈ t', isSlugChar d = true ∨ d = '-' := by
            intro d hd
            exact hclean_t d (by rw [ht0]; exact List.mem_cons_of_mem _ hd)
          have hnt' : ∀ g ∈ runs t', isTok g = false := by
            intro g hg
            apply hnt
            have hre : runs (c :: rest)
                = (c :: rest).takeWhile isSlugChar :: runs t' := by
              conv_lhs => rw [← hdecomp, ht0]
              exact runs_run_cons _ t' hg_all hgne
            rw [hre]
            exact List.mem_cons_of_mem _ hg
          rw [ih t' hlen' hclean' hnt', ← ht0]
          exact hdecomp
      · subst hc
        have hstep : removeSuffixGo 0 false ('-' :: rest)
            = '-' :: removeSuffixGo 0 false rest := by
          rw [removeSuffixGo_cons_false, findCandidate_hyphen]
          show '-' :: removeSuffixGo 0 (isWordChar '-') rest = _
          rw [hyphen_not_word]
        rw [hstep]
        have hnt' : ∀ g ∈ runs rest, isTok g = false := by
          intro g hg
          apply hnt
          show _ ∈ runsGo [] ('-' :: rest)
          rw [runsGo_cons_other _ _ _ hyphen_not_slug, if_pos rfl]
          exact hg
        rw [ih rest (Nat.le_of_succ_le_succ (by simpa using hlen))
          (fun d hd => hclean d (List.mem_cons_of_mem _ hd)) hnt']

/-- `.lower()` fixes clean text. -/
lemma toLowerL_clean_id (y : List Char)
    (hy : ∀ c ∈ y, isSlugChar c = true ∨ c = '-') : toLowerL y = y := by
  unfold toLowerL
  have h : ∀ c ∈ y, c.toLower = id c :=
    fun c hc => toLower_id_of_clean_char c (hy c hc)
  rw [List.map_congr_left h, List.map_id]

/-- The NFD/ascii fold fixes clean (ASCII) text. -/
lemma asciiFold_clean_id (y : List Char)
    (hy : ∀ c ∈ y, isSlugChar c = true ∨ c = '-') : asciiFold y = y := by
  unfold asciiFold
  apply List.filter_eq_self.mpr
  intro c hc
  rcases hy c hc with h | h
  · simp only [isSlugChar, Bool.or_eq_true, Bool.and_eq_true, decide_eq_true_eq] at h
    simp only [decide_eq_true_eq]
    omega
  · subst h; decide

/-- C8 (amended): `slugify` is idempotent on already-clean input — only
lowercase ASCII letters, digits and hyphens — of length at most 40, i.e.
whenever the final `[:40]` truncation does not cut the slug. -/
theorem c8_slugify_idempotent (x : List Char)
    (hclean : isCleanSlugInput x = true) (hlen : x.length ≤ 40) :
    slugify (slugify x) = slugify x := by
  have hx : ∀ c ∈ x, isSlugChar c = true ∨ c = '-' := by
    intro c hc
    have h := (List.all_eq_true.mp hclean) c hc
    simp only [Bool.or_eq_true, decide_eq_true_eq] at h
    exact h
  have hr_clean : ∀ c ∈ removeSuffixTokens x, isSlugChar c = true ∨ c = '-' :=
    fun c hc => hx c (removeSuffixGo_subset x 0 false c hc)
  have hylen :
      (stripHyphens (collapseNonAlnum (removeSuffixTokens x))).length ≤ 40 := by
    calc (stripHyphens (collapseNonAlnum (removeSuffixTokens x))).length
        ≤ (collapseNonAlnum (removeSuffixTokens x)).length := stripHyphens_length _
      _ ≤ (removeSuffixTokens x).length := collapseGo_length _ false
      _ ≤ x.length := removeSuffixGo_length x 0 false
      _ ≤ 40 := hlen
  have hslug1 : slugify x = stripHyphens (collapseNonAlnum (removeSuffixTokens x)) := by
    unfold slugify
    rw [asciiFold_clean_id _ hr_clean, toLowerL_clean_id _ hr_clean,
      List.take_of_length_le hylen]
  set y := stripHyphens (collapseNonAlnum (removeSuffixTokens x)) with hydef
  have hy_clean : ∀ c ∈ y, isSlugChar c = true ∨ c = '-' := by
    intro c hc
    exact collapseGo_chars (removeSuffixTokens x) false c (stripHyphens_subset _ c hc)
  have hy_chain : List.Chain' (fun a b => ¬(a = '-' ∧ b = '-')) y :=
    stripHyphens_chain _ (collapseGo_chain (removeSuffixTokens x) false)
  have hy_runs : ∀ g ∈ runs y, isTok g = false := by
    have h1 : runs y = runs (collapseNonAlnum (removeSuffixTokens x)) :=
      runs_stripHyphens _
    have h2 : runs (collapseNonAlnum (removeSuffixTokens x))
        = runs (removeSuffixTokens x) :=
      (runsGo_collapseGo (removeSuffixTokens x)).1 []
    have h3 : runs (removeSuffixTokens x)
        = (runs x).filter (fun g => !isTok g) :=
      runs_removeSuffix_aux x.length x le_rfl hx
    intro g hg
    rw [h1, h2, h3] at hg
    have := List.of_mem_filter hg
    simpa using this
  have hid : removeSuffixTokens y = y :=
    removeSuffix_id_aux y.length y le_rfl hy_clean hy_runs
  have hcoll : collapseNonAlnum y = y := (collapseGo_id y hy_clean hy_chain).1
  have hstrip : stripHyphens y = y :=
    stripHyphens_id y (stripHyphens_head _) (stripHyphens_last _)
  rw [hslug1]
  show slugify y = y
  unfold slugify
  rw [show removeSuffixTokens y = y from hid, asciiFold_clean_id _ hy_clean,
    toLowerL_clean_id _ hy_clean,
    show collapseNonAlnum y = y from hcoll, hstrip]
  exact List.take_of_length_le hylen

/-- Witness for C8 (amended) at a concrete clean name. -/
theorem c8_slugify_idempotent_witness :
    slugify (slugify (("loodgieter-jansen").toList))
      = slugify (("loodgieter-jansen").toList) :=
  c8_slugify_idempotent _ (by decide) (by decide)

end LeadPilot
